import Mathlib

/-!
# Verification of `vllm/compilation/backends.py`

A shallow embedding of the piecewise-compilation backend of the repository:
the graph splitter `split_graph`, the `CompilerManager` compilation cache
(initialization, lookup, compile, save), the single-use `VllmBackend.__call__`
driver, and the `copy_and_call` static-buffer replay adapter, together with
theorems settling the specification's claims about them.
-/

set_option maxRecDepth 4000

/-! ## Graph nodes and the splitter (`split_graph`, lines 232-277)

An `fx` graph is an ordered sequence of nodes; each node has an op kind
(`"placeholder"`, `"output"`, `"call_function"`, `"call_method"`, ...) and a
target whose string form is compared against the boundary-op names. -/

structure FxNode where
  name : String
  op : String
  target : String
  deriving DecidableEq, Repr

/-- `node.op in ("output", "placeholder")` — structural nodes skipped by the
splitting loop (line 239). -/
def FxNode.isStructural (n : FxNode) : Bool :=
  n.op == "output" || n.op == "placeholder"

/-- `node.op == 'call_function' and str(node.target) in ops` (line 241): the
boundary-op test of the splitting loop. -/
def isBoundaryOp (ops : List String) (n : FxNode) : Bool :=
  n.op == "call_function" && ops.contains n.target

/-- The node-walking loop of `split_graph` (lines 235-247), started at a given
`subgraph_id` counter value.  It returns the list of
`(node, assigned subgraph id)` pairs for the non-structural nodes, in original
order, together with `split_op_graphs`, the ids handed to boundary-op nodes.
A boundary-op node increments the counter, takes the incremented value as its
own id, and increments again; any other non-structural node takes the current
counter value. -/
def assignSubgraphIds (ops : List String) :
    List FxNode → Nat → List (FxNode × Nat) × List Nat
  | [], _ => ([], [])
  | n :: rest, c =>
    if n.isStructural then
      assignSubgraphIds ops rest c
    else if isBoundaryOp ops n then
      ((n, c + 1) :: (assignSubgraphIds ops rest (c + 2)).1,
       (c + 1) :: (assignSubgraphIds ops rest (c + 2)).2)
    else
      ((n, c) :: (assignSubgraphIds ops rest c).1,
       (assignSubgraphIds ops rest c).2)

/-- `SplitItem` (lines 224-229).  The `graph` field is represented by the
ordered list of nodes placed in that partition. -/
structure SplitItem where
  submod_name : String
  graph_id : Nat
  is_splitting_graph : Bool
  nodes : List FxNode
  deriving DecidableEq, Repr

/-- Insertion of a `SplitItem` into a list sorted by ascending `graph_id`:
models `outputs.sort(key=lambda x: x.graph_id)` (line 275). -/
def insertByGraphId (x : SplitItem) : List SplitItem → List SplitItem
  | [] => [x]
  | y :: ys => if x.graph_id ≤ y.graph_id then x :: y :: ys
               else y :: insertByGraphId x ys

/-- `outputs.sort(key=lambda x: x.graph_id)` (line 275): sort by the integer
partition id (insertion sort, which is stable and sorts by `graph_id`). -/
def sortByGraphId (l : List SplitItem) : List SplitItem :=
  l.foldr insertByGraphId []

/-- The distinct subgraph ids actually used, in order of first appearance.
`torch.fx.passes.split_module.split_module` (an external collaborator, lines
253-257) creates one submodule named `submod_<id>` per distinct id returned by
the callback, holding the nodes mapped to that id in original order. -/
def usedSubgraphIds (assigns : List (FxNode × Nat)) : List Nat :=
  (assigns.map Prod.snd).dedup

/-- The nodes assigned to partition `id`, in original order. -/
def partitionNodes (assigns : List (FxNode × Nat)) (id : Nat) : List FxNode :=
  (assigns.filter (fun p => p.2 == id)).map Prod.fst

/-- `split_graph(graph, ops)` (lines 232-277): assign subgraph ids by the
boundary-op walk, split into one submodule per used id (external
`split_module`, modelled as grouping by assigned id with original order kept),
build one `SplitItem` per submodule with
`is_splitting_graph = (graph_id in split_op_graphs)` (line 272), and sort the
result by integer `graph_id` (line 275). -/
def split_graph (nodes : List FxNode) (ops : List String) : List SplitItem :=
  let (assigns, split_op_graphs) := assignSubgraphIds ops nodes 0
  let items := (usedSubgraphIds assigns).map (fun id =>
    { submod_name := "submod_" ++ toString id
      graph_id := id
      is_splitting_graph := split_op_graphs.contains id
      nodes := partitionNodes assigns id })
  sortByGraphId items

/-! ### Invariants of the subgraph-id assignment -/

theorem assign_snd_ge (ops : List String) (nodes : List FxNode) (c : Nat) :
    ∀ p ∈ (assignSubgraphIds ops nodes c).1, c ≤ p.2 := by
  induction nodes generalizing c with
  | nil => intro p hp; simp [assignSubgraphIds] at hp
  | cons n rest ih =>
    intro p hp
    by_cases hs : n.isStructural
    · simp only [assignSubgraphIds, hs, if_true] at hp
      exact ih c p hp
    · by_cases hb : isBoundaryOp ops n
      · simp [assignSubgraphIds, hs, hb] at hp
        rcases hp with h | h
        · subst h; omega
        · have := ih (c + 2) p h; omega
      · simp [assignSubgraphIds, hs, hb] at hp
        rcases hp with h | h
        · subst h; omega
        · exact ih c p h

theorem assign_splits_gt (ops : List String) (nodes : List FxNode) (c : Nat) :
    ∀ i ∈ (assignSubgraphIds ops nodes c).2, c < i := by
  induction nodes generalizing c with
  | nil => intro i hi; simp [assignSubgraphIds] at hi
  | cons n rest ih =>
    intro i hi
    by_cases hs : n.isStructural
    · simp only [assignSubgraphIds, hs, if_true] at hi
      exact ih c i hi
    · by_cases hb : isBoundaryOp ops n
      · simp [assignSubgraphIds, hs, hb] at hi
        rcases hi with h | h
        · omega
        · have := ih (c + 2) i h; omega
      · simp [assignSubgraphIds, hs, hb] at hi
        exact ih c i hi

theorem assign_boundary_mem_splits (ops : List String) (nodes : List FxNode)
    (c : Nat) (n : FxNode) (i : Nat)
    (hmem : (n, i) ∈ (assignSubgraphIds ops nodes c).1)
    (hb : isBoundaryOp ops n = true) :
    i ∈ (assignSubgraphIds ops nodes c).2 := by
  induction nodes generalizing c with
  | nil => simp [assignSubgraphIds] at hmem
  | cons m rest ih =>
    by_cases hs : m.isStructural
    · simp only [assignSubgraphIds, hs, if_true] at hmem ⊢
      exact ih c hmem
    · by_cases hbm : isBoundaryOp ops m
      · simp [assignSubgraphIds, hs, hbm] at hmem ⊢
        rcases hmem with ⟨hn, hi⟩ | h
        · left; omega
        · right; exact ih (c + 2) h
      · simp [assignSubgraphIds, hs, hbm] at hmem ⊢
        rcases hmem with ⟨hn, hi⟩ | h
        · subst hn; simp [hbm] at hb
        · exact ih c h

theorem assign_splits_filter (ops : List String) (nodes : List FxNode)
    (c : Nat) (i : Nat)
    (hi : i ∈ (assignSubgraphIds ops nodes c).2) :
    ∃ n, isBoundaryOp ops n = true ∧
      ((assignSubgraphIds ops nodes c).1.filter (fun p => p.2 == i)) =
        [(n, i)] := by
  induction nodes generalizing c with
  | nil => simp [assignSubgraphIds] at hi
  | cons m rest ih =>
    by_cases hs : m.isStructural
    · simp only [assignSubgraphIds, hs, if_true] at hi ⊢
      exact ih c hi
    · by_cases hbm : isBoundaryOp ops m
      · simp only [assignSubgraphIds, hs, hbm, if_true] at hi ⊢
        rw [if_neg (by simp [hs])] at hi ⊢
        simp only [List.mem_cons] at hi
        rcases hi with rfl | hi'
        · refine ⟨m, hbm, ?_⟩
          rw [List.filter_cons_of_pos (by simp)]
          have hge := assign_snd_ge ops rest (c + 2)
          have : ((assignSubgraphIds ops rest (c + 2)).1.filter
              (fun p => p.2 == c + 1)) = [] := by
            rw [List.filter_eq_nil_iff]
            intro p hp
            have := hge p hp
            simp only [beq_iff_eq]
            omega
          simp [this]
        · obtain ⟨n, hbn, hfil⟩ := ih (c + 2) hi'
          refine ⟨n, hbn, ?_⟩
          have higt : c + 2 < i := assign_splits_gt ops rest (c + 2) i hi'
          rw [List.filter_cons_of_neg (by simp; omega)]
          exact hfil
      · simp only [assignSubgraphIds, hs, hbm, if_true] at hi ⊢
        rw [if_neg (by simp [hs]), if_neg (by simp [hbm])] at hi ⊢
        obtain ⟨n, hbn, hfil⟩ := ih c hi
        refine ⟨n, hbn, ?_⟩
        have higt : c < i := assign_splits_gt ops rest c i hi
        rw [List.filter_cons_of_neg (by simp; omega)]
        exact hfil

theorem assign_nonboundary_not_mem_splits (ops : List String)
    (nodes : List FxNode) (c : Nat) (n : FxNode) (i : Nat)
    (hmem : (n, i) ∈ (assignSubgraphIds ops nodes c).1)
    (hb : isBoundaryOp ops n = false) :
    i ∉ (assignSubgraphIds ops nodes c).2 := by
  induction nodes generalizing c with
  | nil => simp [assignSubgraphIds] at hmem
  | cons m rest ih =>
    by_cases hs : m.isStructural
    · simp only [assignSubgraphIds, hs, if_true] at hmem ⊢
      exact ih c hmem
    · by_cases hbm : isBoundaryOp ops m
      · simp [assignSubgraphIds, hs, hbm] at hmem ⊢
        rcases hmem with ⟨hn, hi⟩ | h
        · subst hn; simp [hb] at hbm
        · constructor
          · have := assign_snd_ge ops rest (c + 2) (n, i) h
            simp at this; omega
          · exact ih (c + 2) h
      · simp [assignSubgraphIds, hs, hbm] at hmem ⊢
        rcases hmem with ⟨hn, hi⟩ | h
        · intro hc
          have := assign_splits_gt ops rest c i hc
          omega
        · exact ih c h

theorem assign_structural_not_mem (ops : List String) (nodes : List FxNode)
    (c : Nat) (n : FxNode) (i : Nat)
    (hmem : (n, i) ∈ (assignSubgraphIds ops nodes c).1) :
    n.isStructural = false := by
  induction nodes generalizing c with
  | nil => simp [assignSubgraphIds] at hmem
  | cons m rest ih =>
    by_cases hs : m.isStructural
    · simp only [assignSubgraphIds, hs, if_true] at hmem
      exact ih c hmem
    · by_cases hbm : isBoundaryOp ops m
      · simp [assignSubgraphIds, hs, hbm] at hmem
        rcases hmem with ⟨hn, hi⟩ | h
        · subst hn; simpa using hs
        · exact ih (c + 2) h
      · simp [assignSubgraphIds, hs, hbm] at hmem
        rcases hmem with ⟨hn, hi⟩ | h
        · subst hn; simpa using hs
        · exact ih c h

/-! ### From the assignment to the returned `SplitItem` list -/

theorem mem_insertByGraphId (x y : SplitItem) (l : List SplitItem) :
    y ∈ insertByGraphId x l ↔ y = x ∨ y ∈ l := by
  induction l with
  | nil => simp [insertByGraphId]
  | cons z zs ih =>
    simp only [insertByGraphId]
    by_cases h : x.graph_id ≤ z.graph_id
    · simp [h]
    · simp [h, ih]
      tauto

theorem mem_sortByGraphId (x : SplitItem) (l : List SplitItem) :
    x ∈ sortByGraphId l ↔ x ∈ l := by
  induction l with
  | nil => simp [sortByGraphId]
  | cons z zs ih =>
    simp only [sortByGraphId, List.foldr_cons] at ih ⊢
    rw [mem_insertByGraphId, ih]
    simp

theorem mem_partitionNodes (assigns : List (FxNode × Nat)) (id : Nat)
    (n : FxNode) : n ∈ partitionNodes assigns id ↔ (n, id) ∈ assigns := by
  simp only [partitionNodes, List.mem_map, List.mem_filter]
  constructor
  · rintro ⟨⟨m, j⟩, ⟨hmem, hj⟩, rfl⟩
    simp only [beq_iff_eq] at hj
    subst hj; exact hmem
  · intro h
    exact ⟨(n, id), ⟨h, by simp⟩, rfl⟩

theorem mem_split_graph (nodes : List FxNode) (ops : List String)
    (item : SplitItem) :
    item ∈ split_graph nodes ops ↔
      ∃ id ∈ usedSubgraphIds (assignSubgraphIds ops nodes 0).1,
        item = { submod_name := "submod_" ++ toString id
                 graph_id := id
                 is_splitting_graph :=
                   (assignSubgraphIds ops nodes 0).2.contains id
                 nodes := partitionNodes (assignSubgraphIds ops nodes 0).1 id } := by
  simp only [split_graph, mem_sortByGraphId, List.mem_map]
  constructor
  · rintro ⟨id, hid, rfl⟩; exact ⟨id, hid, rfl⟩
  · rintro ⟨id, hid, rfl⟩; exact ⟨id, hid, rfl⟩

/-! ### Claim theorems about the splitter -/

/-- A boundary-op name used in the concrete scenarios. -/
def attnOp : String := "vllm.unified_attention"

/-- Five non-structural nodes in order: two regular call nodes, one
boundary-op node, two regular call nodes (plus a structural placeholder and
output around them). -/
def scenarioNodes : List FxNode :=
  [⟨"x", "placeholder", "x"⟩,
   ⟨"n0", "call_function", "torch.add"⟩,
   ⟨"n1", "call_function", "torch.mul"⟩,
   ⟨"attn", "call_function", attnOp⟩,
   ⟨"n3", "call_function", "torch.sub"⟩,
   ⟨"n4", "call_function", "torch.relu"⟩,
   ⟨"out", "output", "out"⟩]

/-- A scenario with a `call_method` node whose target string matches a
boundary-op name: it is not isolated. -/
def methodCallScenario : List FxNode :=
  [⟨"x", "placeholder", "x"⟩,
   ⟨"r0", "call_function", "torch.add"⟩,
   ⟨"m", "call_method", attnOp⟩,
   ⟨"r1", "call_function", "torch.mul"⟩,
   ⟨"out", "output", "out"⟩]

/-- **C1**: boundary isolation of `split_graph`.  Every node recognized as a
boundary op is assigned a partition of its own: its `SplitItem` has
`is_splitting_graph = true` and contains only that node, so no non-boundary
node ever shares a partition with a boundary-op node. -/
theorem split_graph_boundary_isolation (ops : List String)
    (nodes : List FxNode) (item : SplitItem) (n : FxNode)
    (hitem : item ∈ split_graph nodes ops) (hn : n ∈ item.nodes)
    (hb : isBoundaryOp ops n = true) :
    item.is_splitting_graph = true ∧ item.nodes = [n] := by
  rw [mem_split_graph] at hitem
  obtain ⟨id, hid, rfl⟩ := hitem
  simp only at hn ⊢
  rw [mem_partitionNodes] at hn
  have hsplit : id ∈ (assignSubgraphIds ops nodes 0).2 :=
    assign_boundary_mem_splits ops nodes 0 n id hn hb
  obtain ⟨m, hbm, hfil⟩ := assign_splits_filter ops nodes 0 id hsplit
  have hnm : n = m := by
    have : (n, id) ∈ ((assignSubgraphIds ops nodes 0).1.filter
        (fun p => p.2 == id)) := by
      rw [List.mem_filter]
      exact ⟨hn, by simp⟩
    rw [hfil] at this
    simp only [List.mem_singleton, Prod.mk.injEq] at this
    exact this.1
  subst hnm
  refine ⟨by simpa using hsplit, ?_⟩
  unfold partitionNodes
  rw [hfil]
  simp

/-- Witness for C1 at the concrete five-node scenario: the boundary-op node's
partition is the singleton splitting partition `submod_1`. -/
theorem split_graph_boundary_isolation_witness :
    ({ submod_name := "submod_1", graph_id := 1, is_splitting_graph := true,
       nodes := [⟨"attn", "call_function", attnOp⟩] } :
        SplitItem).is_splitting_graph = true ∧
    ({ submod_name := "submod_1", graph_id := 1, is_splitting_graph := true,
       nodes := [⟨"attn", "call_function", attnOp⟩] } :
        SplitItem).nodes = [⟨"attn", "call_function", attnOp⟩] :=
  split_graph_boundary_isolation [attnOp] scenarioNodes
    { submod_name := "submod_1", graph_id := 1, is_splitting_graph := true,
      nodes := [⟨"attn", "call_function", attnOp⟩] }
    ⟨"attn", "call_function", attnOp⟩ (by decide) (by decide) (by decide)

/-- **C2**: the five-node scenario.  `split_graph` returns exactly three
`SplitItem`s in ascending integer `graph_id` order `0, 1, 2`: partition 0
holds the first two regular nodes, partition 1 holds only the boundary node
with `is_splitting_graph = true`, partition 2 holds the last two nodes, and
only partitions 0 and 2 are compilable (`is_splitting_graph = false`). -/
theorem split_graph_five_node_scenario :
    split_graph scenarioNodes [attnOp] =
      [{ submod_name := "submod_0", graph_id := 0, is_splitting_graph := false,
         nodes := [⟨"n0", "call_function", "torch.add"⟩,
                   ⟨"n1", "call_function", "torch.mul"⟩] },
       { submod_name := "submod_1", graph_id := 1, is_splitting_graph := true,
         nodes := [⟨"attn", "call_function", attnOp⟩] },
       { submod_name := "submod_2", graph_id := 2, is_splitting_graph := false,
         nodes := [⟨"n3", "call_function", "torch.sub"⟩,
                   ⟨"n4", "call_function", "torch.relu"⟩] }] := by
  decide

/-- **C10**: the implicit boundary-detection predicate.  A node lands in a
splitting partition only when its op kind is `call_function` and its target
string is among the boundary-op names; a node of any other op kind is never in
a splitting partition (even if its target matches, as the concrete
`call_method` scenario shows, where it shares the single regular partition
with its neighbours); structural placeholder/output nodes appear in no
partition. -/
theorem split_graph_boundary_predicate :
    (∀ (ops : List String) (nodes : List FxNode) (item : SplitItem)
        (n : FxNode), item ∈ split_graph nodes ops → n ∈ item.nodes →
        (item.is_splitting_graph = true →
          n.op = "call_function" ∧ n.target ∈ ops) ∧
        (n.op ≠ "call_function" → item.is_splitting_graph = false) ∧
        n.isStructural = false) ∧
    split_graph methodCallScenario [attnOp] =
      [{ submod_name := "submod_0", graph_id := 0, is_splitting_graph := false,
         nodes := [⟨"r0", "call_function", "torch.add"⟩,
                   ⟨"m", "call_method", attnOp⟩,
                   ⟨"r1", "call_function", "torch.mul"⟩] }] := by
  constructor
  · intro ops nodes item n hitem hn
    rw [mem_split_graph] at hitem
    obtain ⟨id, hid, rfl⟩ := hitem
    simp only at hn ⊢
    rw [mem_partitionNodes] at hn
    have hstruct : n.isStructural = false :=
      assign_structural_not_mem ops nodes 0 n id hn
    have hkey : (assignSubgraphIds ops nodes 0).2.contains id = true →
        n.op = "call_function" ∧ n.target ∈ ops := by
      intro hc
      have hsplit : id ∈ (assignSubgraphIds ops nodes 0).2 := by
        simpa using hc
      obtain ⟨m, hbm, hfil⟩ := assign_splits_filter ops nodes 0 id hsplit
      have hnm : n = m := by
        have : (n, id) ∈ ((assignSubgraphIds ops nodes 0).1.filter
            (fun p => p.2 == id)) := by
          rw [List.mem_filter]
          exact ⟨hn, by simp⟩
        rw [hfil] at this
        simp only [List.mem_singleton, Prod.mk.injEq] at this
        exact this.1
      subst hnm
      unfold isBoundaryOp at hbm
      simp only [Bool.and_eq_true, beq_iff_eq] at hbm
      exact ⟨hbm.1, List.mem_of_elem_eq_true hbm.2⟩
    refine ⟨hkey, ?_, hstruct⟩
    intro hop
    by_contra hsp
    have : (assignSubgraphIds ops nodes 0).2.contains id = true := by
      revert hsp
      cases h : (assignSubgraphIds ops nodes 0).2.contains id <;> simp [h]
    exact hop (hkey this).1
  · decide

/-- Witness for C10: the `call_method` node with a matching target string, in
its concrete scenario, is non-structural and sits in a non-splitting
partition. -/
theorem split_graph_boundary_predicate_witness :
    ((⟨"m", "call_method", attnOp⟩ : FxNode).op ≠ "call_function" →
      ({ submod_name := "submod_0", graph_id := 0, is_splitting_graph := false,
         nodes := [⟨"r0", "call_function", "torch.add"⟩,
                   ⟨"m", "call_method", attnOp⟩,
                   ⟨"r1", "call_function", "torch.mul"⟩] } :
          SplitItem).is_splitting_graph = false) ∧
    (⟨"m", "call_method", attnOp⟩ : FxNode).isStructural = false :=
  ⟨(split_graph_boundary_predicate.1 [attnOp] methodCallScenario
      { submod_name := "submod_0", graph_id := 0, is_splitting_graph := false,
        nodes := [⟨"r0", "call_function", "torch.add"⟩,
                  ⟨"m", "call_method", attnOp⟩,
                  ⟨"r1", "call_function", "torch.mul"⟩] }
      ⟨"m", "call_method", attnOp⟩ (by decide) (by decide)).2.1,
   (split_graph_boundary_predicate.1 [attnOp] methodCallScenario
      { submod_name := "submod_0", graph_id := 0, is_splitting_graph := false,
        nodes := [⟨"r0", "call_function", "torch.add"⟩,
                  ⟨"m", "call_method", attnOp⟩,
                  ⟨"r1", "call_function", "torch.mul"⟩] }
      ⟨"m", "call_method", attnOp⟩ (by decide) (by decide)).2.2⟩

/-! ## Python literal values, `pprint.pformat` and `ast.literal_eval`

`CompilerManager` stores its cache as a Python dict from
`(runtime_shape, graph_index, backend_name)` tuples to opaque handles,
serialized with `pprint.pformat` (line 108-111) and parsed back with
`ast.literal_eval` (line 99).  `pprint` and `ast` are Python standard-library
collaborators, not part of `src/`, so they are modelled here from the spec:
literal values are `None`, ints, strings, and nested tuples/lists/dicts; the
serialization is the canonical literal rendering (the pretty-printer differs
from it only by whitespace between tokens); the parser is a strict
literal-only parser that executes nothing. -/

mutual

inductive PyLit where
  | pynone : PyLit
  | pyint : Int → PyLit
  | pystr : List Char → PyLit
  | pytuple : PyItems → PyLit
  | pylist : PyItems → PyLit
  | pydict : PyPairs → PyLit
  deriving DecidableEq, Repr

inductive PyItems where
  | inil : PyItems
  | icons : PyLit → PyItems → PyItems
  deriving DecidableEq, Repr

inductive PyPairs where
  | pnil : PyPairs
  | pcons : PyLit → PyLit → PyPairs → PyPairs
  deriving DecidableEq, Repr

end

/-- The open-brace character, written numerically. -/
def lbrace : Char := Char.ofNat 123

/-- The close-brace character, written numerically. -/
def rbrace : Char := Char.ofNat 125

/-- The decimal digit character for `d < 10`. -/
def digitChar (d : Nat) : Char := Char.ofNat (48 + d)

/-- Decimal rendering of a natural number, most significant digit first. -/
def natChars (n : Nat) : List Char :=
  if n = 0 then ['0'] else ((Nat.digits 10 n).map digitChar).reverse

/-- `repr` of a Python int: decimal digits with a leading `-` when negative. -/
def intChars (i : Int) : List Char :=
  if i < 0 then '-' :: natChars i.natAbs else natChars i.natAbs

/-- Is `c` a decimal digit? -/
def isDigitChar (c : Char) : Bool := 48 ≤ c.toNat && c.toNat ≤ 57

/-- `repr` of a Python string picks `'` as delimiter unless the string
contains `'` and no `"`, in which case it picks `"`. -/
def strDelim (s : List Char) : Char :=
  if s.contains '\'' && !(s.contains '"') then '"' else '\''

/-- Escaping of one character under string delimiter `q`: the backslash and
the delimiter are backslash-escaped, everything else is emitted as itself
(control characters are emitted raw in this model; Python additionally
escapes them, and both renderings parse back to the same string). -/
def escChar (q c : Char) : List Char :=
  if c = '\\' ∨ c = q then ['\\', c] else [c]

/-- The escaped body of a string literal under delimiter `q`. -/
def strBody (q : Char) : List Char → List Char
  | [] => []
  | c :: cs => escChar q c ++ strBody q cs

/-- `repr` of a Python string: delimiter, escaped body, delimiter. -/
def strChars (s : List Char) : List Char :=
  strDelim s :: (strBody (strDelim s) s ++ [strDelim s])

mutual

/-- Modelled from the spec: the canonical literal rendering of a Python
value, as produced by `repr`/`pprint.pformat` (`pformat` inserts line breaks
and indentation between tokens of large values; this model renders on one
line, which parses identically). -/
def serLit : PyLit → List Char
  | .pynone => ['N', 'o', 'n', 'e']
  | .pyint i => intChars i
  | .pystr s => strChars s
  | .pytuple .inil => ['(', ')']
  | .pytuple (.icons x .inil) => '(' :: (serLit x ++ [',', ')'])
  | .pytuple (.icons x xs) => '(' :: (serLit x ++ serItemsRest xs ++ [')'])
  | .pylist .inil => ['[', ']']
  | .pylist (.icons x xs) => '[' :: (serLit x ++ serItemsRest xs ++ [']'])
  | .pydict .pnil => [lbrace, rbrace]
  | .pydict (.pcons k v ps) =>
      lbrace :: (serLit k ++ ':' :: ' ' :: serLit v ++ serPairsRest ps
        ++ [rbrace])

/-- The `", elem"`-rendering of the second and later elements of a
tuple/list literal. -/
def serItemsRest : PyItems → List Char
  | .inil => []
  | .icons x xs => ',' :: ' ' :: (serLit x ++ serItemsRest xs)

/-- The `", key: value"`-rendering of the second and later entries of a dict
literal. -/
def serPairsRest : PyPairs → List Char
  | .pnil => []
  | .pcons k v ps =>
      ',' :: ' ' :: (serLit k ++ ':' :: ' ' :: serLit v ++ serPairsRest ps)

end

mutual

/-- Node count of a literal, used as the parser fuel measure. -/
def sizeLit : PyLit → Nat
  | .pynone => 1
  | .pyint _ => 1
  | .pystr _ => 1
  | .pytuple xs => sizeItems xs + 1
  | .pylist xs => sizeItems xs + 1
  | .pydict ps => sizePairs ps + 1

/-- Node count of an element list. -/
def sizeItems : PyItems → Nat
  | .inil => 0
  | .icons x xs => sizeLit x + sizeItems xs + 1

/-- Node count of an entry list. -/
def sizePairs : PyPairs → Nat
  | .pnil => 0
  | .pcons k v ps => sizeLit k + sizeLit v + sizePairs ps + 1

end

/-- Longest digit prefix of the input, and the remainder. -/
def spanDigits : List Char → List Char × List Char
  | [] => ([], [])
  | c :: cs =>
    if isDigitChar c then
      ((c :: (spanDigits cs).1), (spanDigits cs).2)
    else ([], c :: cs)

/-- Parse a decimal natural number; fails when the input does not start with
a digit. -/
def parseNat (s : List Char) : Option (Nat × List Char) :=
  if (spanDigits s).1.isEmpty then none
  else
    some ((spanDigits s).1.foldl (fun a c => a * 10 + (c.toNat - 48)) 0,
      (spanDigits s).2)

/-- Parse the body of a string literal with delimiter `q`: a backslash takes
the following character literally, the unescaped delimiter ends the string. -/
def parseStrBody (q : Char) : List Char → Option (List Char × List Char)
  | [] => none
  | c :: cs =>
    if c = q then some ([], cs)
    else if c = '\\' then
      match cs with
      | [] => none
      | e :: cs' => (parseStrBody q cs').map (fun p => (e :: p.1, p.2))
    else (parseStrBody q cs).map (fun p => (c :: p.1, p.2))

/-- Skip blanks and line breaks (the whitespace `pprint` may insert between
tokens). -/
def skipSpaces : List Char → List Char
  | [] => []
  | c :: cs => if c = ' ' ∨ c = '\n' then skipSpaces cs else c :: cs

mutual

/-- Modelled from the spec: the literal parser of `ast.literal_eval`,
restricted to the literal grammar: `None`, decimal ints, delimited strings,
and tuple/list/dict literals.  It never executes anything: it only builds a
`PyLit` value.  Fueled to make termination structural. -/
def parseLit : Nat → List Char → Option (PyLit × List Char)
  | 0, _ => none
  | fuel + 1, s =>
    match skipSpaces s with
    | [] => none
    | c :: rest => parseLitHead fuel c rest

/-- Dispatch on the first significant character of a literal. -/
def parseLitHead (fuel : Nat) (c : Char) (rest : List Char) :
    Option (PyLit × List Char) :=
  if isDigitChar c then
    (parseNat (c :: rest)).map (fun p => (.pyint (p.1 : Int), p.2))
  else if c = '-' then
    (parseNat rest).map (fun p => (.pyint (-(p.1 : Int)), p.2))
  else if c = 'N' then
    match rest with
    | 'o' :: 'n' :: 'e' :: r => some (.pynone, r)
    | _ => none
  else if c = '\'' ∨ c = '"' then
    (parseStrBody c rest).map (fun p => (.pystr p.1, p.2))
  else if c = '(' then
    match rest with
    | [] => none
    | c' :: r => parseTupleOpen fuel c' r
  else if c = '[' then
    match rest with
    | [] => none
    | c' :: r => parseListOpen fuel c' r
  else if c = lbrace then
    match rest with
    | [] => none
    | c' :: r => parseDictOpen fuel c' r
  else none

/-- Just after `(`: either a closing `)` (the empty tuple) or the first
element followed by the tuple tail. -/
def parseTupleOpen (fuel : Nat) (c' : Char) (r : List Char) :
    Option (PyLit × List Char) :=
  if c' = ')' then some (.pytuple .inil, r)
  else
    match parseLit fuel (c' :: r) with
    | none => none
    | some (x, r1) =>
      match parseTupleTail fuel r1 with
      | none => none
      | some (xs, r2) => some (.pytuple (.icons x xs), r2)

/-- Just after `[`: either a closing `]` (the empty list) or the first
element followed by the list tail. -/
def parseListOpen (fuel : Nat) (c' : Char) (r : List Char) :
    Option (PyLit × List Char) :=
  if c' = ']' then some (.pylist .inil, r)
  else
    match parseLit fuel (c' :: r) with
    | none => none
    | some (x, r1) =>
      match parseListTail fuel r1 with
      | none => none
      | some (xs, r2) => some (.pylist (.icons x xs), r2)

/-- Just after the open brace: either a closing brace (the empty dict) or
the first `key: value` entry followed by the dict tail. -/
def parseDictOpen (fuel : Nat) (c' : Char) (r : List Char) :
    Option (PyLit × List Char) :=
  if c' = rbrace then some (.pydict .pnil, r)
  else
    match parseLit fuel (c' :: r) with
    | none => none
    | some (k, r1) =>
      match r1 with
      | ':' :: r2 =>
        match parseLit fuel r2 with
        | none => none
        | some (v, r3) =>
          match parseDictTail fuel r3 with
          | none => none
          | some (ps, r4) => some (.pydict (.pcons k v ps), r4)
      | _ => none

/-- After one tuple element: `)` closes, `,` is followed either by `)`
(trailing comma of a singleton) or by the next element. -/
def parseTupleTail : Nat → List Char → Option (PyItems × List Char)
  | 0, _ => none
  | fuel + 1, s =>
    match s with
    | ')' :: r => some (.inil, r)
    | ',' :: r =>
      match r with
      | ')' :: r' => some (.inil, r')
      | _ =>
        match parseLit fuel r with
        | none => none
        | some (x, r1) =>
          match parseTupleTail fuel r1 with
          | none => none
          | some (xs, r2) => some (.icons x xs, r2)
    | _ => none

/-- After one list element: `]` closes, `,` is followed by the next
element. -/
def parseListTail : Nat → List Char → Option (PyItems × List Char)
  | 0, _ => none
  | fuel + 1, s =>
    match s with
    | ']' :: r => some (.inil, r)
    | ',' :: r =>
      match parseLit fuel r with
      | none => none
      | some (x, r1) =>
        match parseListTail fuel r1 with
        | none => none
        | some (xs, r2) => some (.icons x xs, r2)
    | _ => none

/-- After one dict entry: the close brace ends the dict, `,` is followed by
the next `key: value` entry. -/
def parseDictTail : Nat → List Char → Option (PyPairs × List Char)
  | 0, _ => none
  | fuel + 1, s =>
    match s with
    | [] => none
    | c :: r =>
      if c = rbrace then some (.pnil, r)
      else if c = ',' then
        match parseLit fuel r with
        | none => none
        | some (k, r1) =>
          match r1 with
          | ':' :: r2 =>
            match parseLit fuel r2 with
            | none => none
            | some (v, r3) =>
              match parseDictTail fuel r3 with
              | none => none
              | some (ps, r4) => some (.pcons k v ps, r4)
          | _ => none
      else none

end

/-- `ast.literal_eval` (modelled from the spec): parse the whole text as one
literal; anything else is a parse error, reported as `none`. -/
def literal_eval (s : List Char) : Option PyLit :=
  match parseLit (s.length + 1) s with
  | some (v, []) => some v
  | _ => none

/-- `pprint.pformat` (modelled from the spec): the literal rendering of the
value (single-line; `pprint`-inserted whitespace is immaterial to parsing). -/
def pformat (v : PyLit) : List Char := serLit v

/-- The input does not start with a decimal digit (so a preceding number
literal cannot absorb it). -/
def notDigitHead : List Char → Prop
  | [] => True
  | c :: _ => isDigitChar c = false

theorem isDigitChar_digitChar (d : Nat) (h : d < 10) :
    isDigitChar (digitChar d) = true := by
  interval_cases d <;> decide

theorem natChars_ne_nil (n : Nat) : natChars n ≠ [] := by
  unfold natChars
  split
  · simp
  · simp only [ne_eq, List.reverse_eq_nil_iff, List.map_eq_nil_iff]
    exact Nat.digits_ne_nil_iff_ne_zero.mpr (by assumption)

theorem natChars_digits (n : Nat) :
    ∀ c ∈ natChars n, isDigitChar c = true := by
  unfold natChars
  split
  · intro c hc; simp only [List.mem_singleton] at hc; subst hc; decide
  · intro c hc
    simp only [List.mem_reverse, List.mem_map] at hc
    obtain ⟨d, hd, rfl⟩ := hc
    exact isDigitChar_digitChar d (Nat.digits_lt_base (by norm_num) hd)

theorem natChars_cons (n : Nat) :
    ∃ d t, natChars n = d :: t ∧ isDigitChar d = true := by
  cases h : natChars n with
  | nil => exact absurd h (natChars_ne_nil n)
  | cons d t =>
    refine ⟨d, t, rfl, ?_⟩
    have := natChars_digits n d
    rw [h] at this
    exact this (by simp)

theorem spanDigits_append (ds rest : List Char)
    (h1 : ∀ c ∈ ds, isDigitChar c = true) (h2 : notDigitHead rest) :
    spanDigits (ds ++ rest) = (ds, rest) := by
  induction ds with
  | nil =>
    simp only [List.nil_append]
    cases rest with
    | nil => rfl
    | cons c t =>
      simp only [notDigitHead] at h2
      simp [spanDigits, h2]
  | cons c cs ih =>
    have hc : isDigitChar c = true := h1 c (by simp)
    simp only [List.cons_append, spanDigits, hc, if_true]
    rw [show cs.append rest = cs ++ rest from rfl,
      ih (fun x hx => h1 x (by simp [hx]))]

theorem foldl_digitChars (L : List Nat) (h : ∀ d ∈ L, d < 10) (a : Nat) :
    ((L.map digitChar).reverse).foldl (fun x c => x * 10 + (c.toNat - 48)) a
      = a * 10 ^ L.length + Nat.ofDigits 10 L := by
  induction L generalizing a with
  | nil => simp [Nat.ofDigits]
  | cons d L' ih =>
    have hd : d < 10 := h d (by simp)
    have htn : (digitChar d).toNat = 48 + d := by
      interval_cases d <;> decide
    simp only [List.map_cons, List.reverse_cons, List.foldl_append,
      List.foldl_cons, List.foldl_nil]
    rw [ih (fun x hx => h x (by simp [hx]))]
    rw [Nat.ofDigits_cons, htn]
    simp only [List.length_cons]
    ring_nf
    omega

theorem parseNat_natChars (n : Nat) (rest : List Char)
    (h2 : notDigitHead rest) :
    parseNat (natChars n ++ rest) = some (n, rest) := by
  unfold parseNat
  rw [spanDigits_append (natChars n) rest (natChars_digits n) h2]
  simp only [List.isEmpty_iff]
  rw [if_neg (natChars_ne_nil n)]
  have hfold : (natChars n).foldl (fun a c => a * 10 + (c.toNat - 48)) 0
      = n := by
    unfold natChars
    split
    · subst n; decide
    · rw [foldl_digitChars _ (fun d hd => Nat.digits_lt_base (by norm_num) hd)
        0, Nat.ofDigits_digits]
      simp
  rw [hfold]

theorem strDelim_cases (s : List Char) :
    strDelim s = '\'' ∨ strDelim s = '"' := by
  unfold strDelim
  split
  · right; rfl
  · left; rfl

theorem parseStrBody_cons (q c : Char) (cs : List Char) :
    parseStrBody q (c :: cs) =
      if c = q then some ([], cs)
      else if c = '\\' then
        match cs with
        | [] => none
        | e :: cs' => (parseStrBody q cs').map (fun p => (e :: p.1, p.2))
      else (parseStrBody q cs).map (fun p => (c :: p.1, p.2)) := by
  rw [parseStrBody.eq_def]

theorem parseStrBody_round (q : Char) (hq : q = '\'' ∨ q = '"')
    (s rest : List Char) :
    parseStrBody q (strBody q s ++ (q :: rest)) = some (s, rest) := by
  induction s with
  | nil =>
    rw [strBody, List.nil_append, parseStrBody_cons, if_pos rfl]
  | cons c cs ih =>
    by_cases hesc : c = '\\' ∨ c = q
    · have hbq : ('\\' : Char) ≠ q := by
        rcases hq with rfl | rfl <;> decide
      simp only [strBody, escChar, if_pos hesc, List.cons_append,
        List.append_assoc, List.nil_append]
      rw [parseStrBody_cons, if_neg hbq, if_pos rfl]
      show (parseStrBody q (strBody q cs ++ q :: rest)).map
          (fun p => (c :: p.1, p.2)) = _
      rw [ih]
      rfl
    · push_neg at hesc
      simp only [strBody, escChar, if_neg (not_or.mpr hesc),
        List.cons_append, List.nil_append]
      rw [parseStrBody_cons, if_neg hesc.2, if_neg hesc.1]
      rw [ih]
      rfl

/-- The characters a serialized literal can start with. -/
def goodHeadB (c : Char) : Bool :=
  isDigitChar c ||
    (['-', 'N', '\'', '"', '(', '[', lbrace].contains c)

theorem goodHead_props (c : Char) (h : goodHeadB c = true) :
    c ≠ ' ' ∧ c ≠ '\n' ∧ c ≠ ')' ∧ c ≠ ']' ∧ c ≠ rbrace := by
  by_cases hd : isDigitChar c = true
  · refine ⟨?_, ?_, ?_, ?_, ?_⟩ <;>
      (intro hh; rw [hh] at hd; revert hd; decide)
  · unfold goodHeadB at h
    simp only [Bool.not_eq_true] at hd
    simp only [hd, Bool.false_or] at h
    have hmem : c ∈ ['-', 'N', '\'', '"', '(', '[', lbrace] :=
      List.mem_of_elem_eq_true h
    fin_cases hmem <;>
      exact ⟨by decide, by decide, by decide, by decide, by decide⟩

theorem serLit_head (v : PyLit) :
    ∃ c t, serLit v = c :: t ∧ goodHeadB c = true := by
  cases v with
  | pynone => exact ⟨'N', _, rfl, by decide⟩
  | pyint i =>
    unfold serLit intChars
    split
    · exact ⟨'-', _, rfl, by decide⟩
    · obtain ⟨d, t, heq, hd⟩ := natChars_cons i.natAbs
      exact ⟨d, t, heq, by simp [goodHeadB, hd]⟩
  | pystr s =>
    refine ⟨strDelim s, _, rfl, ?_⟩
    rcases strDelim_cases s with h | h <;> rw [h] <;> decide
  | pytuple xs =>
    cases xs with
    | inil => exact ⟨'(', _, rfl, by decide⟩
    | icons x ys =>
      cases ys with
      | inil => exact ⟨'(', _, rfl, by decide⟩
      | icons y ys' => exact ⟨'(', _, rfl, by decide⟩
  | pylist xs =>
    cases xs with
    | inil => exact ⟨'[', _, rfl, by decide⟩
    | icons x ys => exact ⟨'[', _, rfl, by decide⟩
  | pydict ps =>
    cases ps with
    | pnil => exact ⟨lbrace, _, rfl, by decide⟩
    | pcons k v ps' => exact ⟨lbrace, _, rfl, by decide⟩

theorem skipSpaces_cons (c : Char) (cs : List Char) :
    skipSpaces (c :: cs) =
      if c = ' ' ∨ c = '\n' then skipSpaces cs else c :: cs := by
  rw [skipSpaces.eq_def]

theorem skipSpaces_good (c : Char) (h : goodHeadB c = true) (t : List Char) :
    skipSpaces (c :: t) = c :: t := by
  obtain ⟨h1, h2, _⟩ := goodHead_props c h
  rw [skipSpaces_cons, if_neg (by rintro (rfl | rfl) <;> simp at h1 h2)]

theorem parseLit_space (fuel : Nat) (s : List Char) :
    parseLit fuel (' ' :: s) = parseLit fuel s := by
  cases fuel with
  | zero => rw [parseLit.eq_1, parseLit.eq_1]
  | succ f =>
    rw [parseLit.eq_2, parseLit.eq_2, skipSpaces_cons, if_pos (Or.inl rfl)]

theorem notDigitHead_cons (c : Char) (t : List Char)
    (h : isDigitChar c = false) : notDigitHead (c :: t) := h

theorem notDigitHead_items_close (xs : PyItems) (c : Char)
    (hc : isDigitChar c = false) (rest : List Char) :
    notDigitHead (serItemsRest xs ++ c :: rest) := by
  cases xs with
  | inil => exact notDigitHead_cons c rest hc
  | icons x ys => exact notDigitHead_cons ',' _ (by decide)

theorem notDigitHead_pairs_close (ps : PyPairs) (rest : List Char) :
    notDigitHead (serPairsRest ps ++ rbrace :: rest) := by
  cases ps with
  | pnil => exact notDigitHead_cons rbrace rest (by decide)
  | pcons k v ps' => exact notDigitHead_cons ',' _ (by decide)

theorem sizeLit_pos (v : PyLit) : 1 ≤ sizeLit v := by
  cases v <;> simp [sizeLit]


theorem parseLit_cons (f : Nat) (c : Char) (cr : List Char)
    (h : ¬(c = ' ' ∨ c = '\n')) :
    parseLit (f + 1) (c :: cr) = parseLitHead f c cr := by
  rw [parseLit.eq_2, skipSpaces_cons, if_neg h]

theorem parseLitHead_paren (f : Nat) (c' : Char) (r : List Char) :
    parseLitHead f '(' (c' :: r) = parseTupleOpen f c' r := by
  rw [parseLitHead.eq_def]
  rw [if_neg (by decide), if_neg (by decide), if_neg (by decide),
    if_neg (by decide), if_pos rfl]

theorem parseLitHead_bracket (f : Nat) (c' : Char) (r : List Char) :
    parseLitHead f '[' (c' :: r) = parseListOpen f c' r := by
  rw [parseLitHead.eq_def]
  rw [if_neg (by decide), if_neg (by decide), if_neg (by decide),
    if_neg (by decide), if_neg (by decide), if_pos rfl]

theorem parseLitHead_brace (f : Nat) (c' : Char) (r : List Char) :
    parseLitHead f lbrace (c' :: r) = parseDictOpen f c' r := by
  rw [parseLitHead.eq_def]
  rw [if_neg (by decide), if_neg (by decide), if_neg (by decide),
    if_neg (by decide), if_neg (by decide), if_neg (by decide), if_pos rfl]

mutual

theorem roundLit (fuel : Nat) (v : PyLit) (rest : List Char)
    (hsz : sizeLit v < fuel) (hrest : notDigitHead rest) :
    parseLit fuel (serLit v ++ rest) = some (v, rest) := by
  obtain ⟨f, rfl⟩ : ∃ f, fuel = f + 1 :=
    ⟨fuel - 1, by have := sizeLit_pos v; omega⟩
  cases v with
  | pynone =>
    have hser : serLit .pynone ++ rest = 'N' :: ('o' :: 'n' :: 'e' :: rest) :=
      rfl
    rw [hser, parseLit_cons f 'N' _ (by decide), parseLitHead.eq_def]
    rw [if_neg (by decide), if_neg (by decide), if_pos rfl]
    rfl
  | pyint i =>
    by_cases hneg : i < 0
    · have hser : serLit (.pyint i) ++ rest
          = '-' :: (natChars i.natAbs ++ rest) := by
        simp [serLit, intChars, if_pos hneg]
      rw [hser, parseLit_cons f '-' _ (by decide), parseLitHead.eq_def]
      rw [if_neg (by decide), if_pos rfl, parseNat_natChars _ _ hrest]
      simp only [Option.map_some']
      have hval : -((i.natAbs : Int)) = i := by omega
      rw [hval]
    · obtain ⟨d, t, heq, hd⟩ := natChars_cons i.natAbs
      have hser : serLit (.pyint i) ++ rest = d :: (t ++ rest) := by
        simp only [serLit, intChars, if_neg hneg, heq, List.cons_append]
      have hdns : ¬(d = ' ' ∨ d = '\n') := by
        rintro (rfl | rfl) <;> exact absurd hd (by decide)
      rw [hser, parseLit_cons f d _ hdns, parseLitHead.eq_def, if_pos hd]
      have hback : d :: (t ++ rest) = natChars i.natAbs ++ rest := by
        rw [heq]; rfl
      rw [hback, parseNat_natChars _ _ hrest]
      simp only [Option.map_some']
      have hval : ((i.natAbs : Int)) = i := by omega
      rw [hval]
  | pystr s =>
    have h4 : strDelim s = '\'' ∨ strDelim s = '"' := strDelim_cases s
    have hser : serLit (.pystr s) ++ rest
        = strDelim s :: (strBody (strDelim s) s ++ (strDelim s :: rest)) := by
      simp [serLit, strChars]
    have h1 : isDigitChar (strDelim s) = false := by
      rcases h4 with h | h <;> rw [h] <;> decide
    have h2 : strDelim s ≠ '-' := by
      rcases h4 with h | h <;> rw [h] <;> decide
    have h3 : strDelim s ≠ 'N' := by
      rcases h4 with h | h <;> rw [h] <;> decide
    have hns : ¬(strDelim s = ' ' ∨ strDelim s = '\n') := by
      rcases h4 with h | h <;> rw [h] <;> decide
    rw [hser, parseLit_cons f _ _ hns, parseLitHead.eq_def]
    rw [if_neg (by simp [h1]), if_neg h2, if_neg h3, if_pos h4]
    rw [parseStrBody_round _ h4]
    rfl
  | pytuple xs =>
    cases xs with
    | inil =>
      have hser : serLit (.pytuple .inil) ++ rest = '(' :: (')' :: rest) :=
        rfl
      rw [hser, parseLit_cons f '(' _ (by decide), parseLitHead_paren]
      rw [parseTupleOpen.eq_def, if_pos rfl]
    | icons x ys =>
      obtain ⟨c, t, heq, hgood⟩ := serLit_head x
      obtain ⟨hc1, hc2, hc3, hc4, hc5⟩ := goodHead_props c hgood
      cases ys with
      | inil =>
        have hx : sizeLit x < f := by
          simp only [sizeLit, sizeItems] at hsz; omega
        obtain ⟨f', rfl⟩ : ∃ f', f = f' + 1 :=
          ⟨f - 1, by have := sizeLit_pos x; omega⟩
        have hser : serLit (.pytuple (.icons x .inil)) ++ rest
            = '(' :: (serLit x ++ (',' :: ')' :: rest)) := by
          simp [serLit, List.append_assoc]
        rw [hser, parseLit_cons _ '(' _ (by decide)]
        rw [heq]
        simp only [List.cons_append]
        rw [parseLitHead_paren, parseTupleOpen.eq_def, if_neg hc3]
        rw [← List.cons_append, ← heq]
        simp only [roundLit (f' + 1) x (',' :: ')' :: rest) hx
          (notDigitHead_cons ',' _ (by decide))]
        rw [parseTupleTail.eq_3]
      | icons y ys' =>
        have hx : sizeLit x < f := by
          simp only [sizeLit, sizeItems] at hsz; omega
        have hys : sizeItems (.icons y ys') < f := by
          simp only [sizeLit, sizeItems] at hsz
          simp only [sizeItems]; omega
        have hser : serLit (.pytuple (.icons x (.icons y ys'))) ++ rest
            = '(' :: (serLit x ++ (serItemsRest (.icons y ys')
                ++ (')' :: rest))) := by
          simp [serLit, List.append_assoc]
        rw [hser, parseLit_cons f '(' _ (by decide)]
        rw [heq]
        simp only [List.cons_append]
        rw [parseLitHead_paren, parseTupleOpen.eq_def, if_neg hc3]
        rw [← List.cons_append, ← heq]
        simp only [roundLit f x (serItemsRest (.icons y ys') ++ (')' :: rest))
            hx (notDigitHead_items_close (.icons y ys') ')' (by decide) rest),
          roundTupleTail f (.icons y ys') rest hys]
  | pylist xs =>
    cases xs with
    | inil =>
      have hser : serLit (.pylist .inil) ++ rest = '[' :: (']' :: rest) :=
        rfl
      rw [hser, parseLit_cons f '[' _ (by decide), parseLitHead_bracket]
      rw [parseListOpen.eq_def, if_pos rfl]
    | icons x ys =>
      obtain ⟨c, t, heq, hgood⟩ := serLit_head x
      obtain ⟨hc1, hc2, hc3, hc4, hc5⟩ := goodHead_props c hgood
      have hx : sizeLit x < f := by
        simp only [sizeLit, sizeItems] at hsz; omega
      have hys : sizeItems ys < f := by
        simp only [sizeLit, sizeItems] at hsz; omega
      have hser : serLit (.pylist (.icons x ys)) ++ rest
          = '[' :: (serLit x ++ (serItemsRest ys ++ (']' :: rest))) := by
        simp [serLit, List.append_assoc]
      rw [hser, parseLit_cons f '[' _ (by decide)]
      rw [heq]
      simp only [List.cons_append]
      rw [parseLitHead_bracket, parseListOpen.eq_def, if_neg hc4]
      rw [← List.cons_append, ← heq]
      simp only [roundLit f x (serItemsRest ys ++ (']' :: rest)) hx
          (notDigitHead_items_close ys ']' (by decide) rest),
        roundListTail f ys rest hys]
  | pydict ps =>
    cases ps with
    | pnil =>
      have hser : serLit (.pydict .pnil) ++ rest = lbrace :: (rbrace :: rest)
        := rfl
      rw [hser, parseLit_cons f lbrace _ (by decide), parseLitHead_brace]
      rw [parseDictOpen.eq_def, if_pos rfl]
    | pcons k v ps' =>
      obtain ⟨c, t, heq, hgood⟩ := serLit_head k
      obtain ⟨hc1, hc2, hc3, hc4, hc5⟩ := goodHead_props c hgood
      have hk : sizeLit k < f := by
        simp only [sizeLit, sizePairs] at hsz; omega
      have hv : sizeLit v < f := by
        simp only [sizeLit, sizePairs] at hsz; omega
      have hps : sizePairs ps' < f := by
        simp only [sizeLit, sizePairs] at hsz; omega
      have hser : serLit (.pydict (.pcons k v ps')) ++ rest
          = lbrace :: (serLit k ++ (':' :: ' ' :: (serLit v
              ++ (serPairsRest ps' ++ (rbrace :: rest))))) := by
        simp [serLit, List.append_assoc]
      rw [hser, parseLit_cons f lbrace _ (by decide)]
      rw [heq]
      simp only [List.cons_append]
      rw [parseLitHead_brace, parseDictOpen.eq_def, if_neg hc5]
      rw [← List.cons_append, ← heq]
      simp only [roundLit f k
        (':' :: ' ' :: (serLit v ++ (serPairsRest ps' ++ (rbrace :: rest))))
        hk (notDigitHead_cons ':' _ (by decide)), reduceIte]
      rw [parseLit_space]
      simp only [roundLit f v (serPairsRest ps' ++ (rbrace :: rest)) hv
          (notDigitHead_pairs_close ps' rest),
        roundDictTail f ps' rest hps]

theorem roundTupleTail (fuel : Nat) (xs : PyItems) (rest : List Char)
    (hsz : sizeItems xs < fuel) :
    parseTupleTail fuel (serItemsRest xs ++ (')' :: rest))
      = some (xs, rest) := by
  obtain ⟨f, rfl⟩ : ∃ f, fuel = f + 1 := ⟨fuel - 1, by omega⟩
  cases xs with
  | inil =>
    simp only [serItemsRest, List.nil_append]
    rw [parseTupleTail.eq_2]
  | icons y ys =>
    have hy : sizeLit y < f := by simp only [sizeItems] at hsz; omega
    have hys : sizeItems ys < f := by simp only [sizeItems] at hsz; omega
    simp only [serItemsRest, List.cons_append, List.append_assoc]
    rw [parseTupleTail.eq_4 f _ (by
      intro r' h
      rw [List.cons_eq_cons] at h
      exact absurd h.1 (by decide))]
    rw [parseLit_space]
    simp only [roundLit f y (serItemsRest ys ++ (')' :: rest)) hy
        (notDigitHead_items_close ys ')' (by decide) rest),
      roundTupleTail f ys rest hys]

theorem roundListTail (fuel : Nat) (xs : PyItems) (rest : List Char)
    (hsz : sizeItems xs < fuel) :
    parseListTail fuel (serItemsRest xs ++ (']' :: rest))
      = some (xs, rest) := by
  obtain ⟨f, rfl⟩ : ∃ f, fuel = f + 1 := ⟨fuel - 1, by omega⟩
  cases xs with
  | inil =>
    simp only [serItemsRest, List.nil_append]
    rw [parseListTail.eq_2]
  | icons y ys =>
    have hy : sizeLit y < f := by simp only [sizeItems] at hsz; omega
    have hys : sizeItems ys < f := by simp only [sizeItems] at hsz; omega
    simp only [serItemsRest, List.cons_append, List.append_assoc]
    rw [parseListTail.eq_3]
    rw [parseLit_space]
    simp only [roundLit f y (serItemsRest ys ++ (']' :: rest)) hy
        (notDigitHead_items_close ys ']' (by decide) rest),
      roundListTail f ys rest hys]

theorem roundDictTail (fuel : Nat) (ps : PyPairs) (rest : List Char)
    (hsz : sizePairs ps < fuel) :
    parseDictTail fuel (serPairsRest ps ++ (rbrace :: rest))
      = some (ps, rest) := by
  obtain ⟨f, rfl⟩ : ∃ f, fuel = f + 1 := ⟨fuel - 1, by omega⟩
  cases ps with
  | pnil =>
    simp only [serPairsRest, List.nil_append]
    rw [parseDictTail.eq_3, if_pos rfl]
  | pcons k v ps' =>
    have hk : sizeLit k < f := by simp only [sizePairs] at hsz; omega
    have hv : sizeLit v < f := by simp only [sizePairs] at hsz; omega
    have hps : sizePairs ps' < f := by simp only [sizePairs] at hsz; omega
    simp only [serPairsRest, List.cons_append, List.append_assoc]
    rw [parseDictTail.eq_3, if_neg (by decide), if_pos rfl]
    rw [parseLit_space]
    simp only [roundLit f k
      (':' :: ' ' :: (serLit v ++ (serPairsRest ps' ++ (rbrace :: rest))))
      hk (notDigitHead_cons ':' _ (by decide)), reduceIte]
    rw [parseLit_space]
    simp only [roundLit f v (serPairsRest ps' ++ (rbrace :: rest)) hv
        (notDigitHead_pairs_close ps' rest),
      roundDictTail f ps' rest hps]

end

mutual

theorem sizeLit_le_len (v : PyLit) : sizeLit v ≤ (serLit v).length := by
  cases v with
  | pynone => simp [serLit, sizeLit]
  | pyint i =>
    have h1 : 0 < (natChars i.natAbs).length :=
      List.length_pos.mpr (natChars_ne_nil _)
    simp only [serLit, sizeLit, intChars]
    split <;> simp <;> omega
  | pystr s => simp [serLit, sizeLit, strChars]
  | pytuple xs =>
    cases xs with
    | inil => simp [serLit, sizeLit, sizeItems]
    | icons x ys =>
      cases ys with
      | inil =>
        have h1 := sizeLit_le_len x
        simp only [serLit, sizeLit, sizeItems, List.length_cons,
          List.length_append]
        simp
        omega
      | icons y ys' =>
        have h1 := sizeLit_le_len x
        have h2 := sizeItems_le_len (.icons y ys')
        simp only [serLit, sizeLit, sizeItems, List.length_cons,
          List.length_append] at h2 ⊢
        omega
  | pylist xs =>
    cases xs with
    | inil => simp [serLit, sizeLit, sizeItems]
    | icons x ys =>
      have h1 := sizeLit_le_len x
      have h2 := sizeItems_le_len ys
      simp only [serLit, sizeLit, sizeItems, List.length_cons,
        List.length_append] at h2 ⊢
      omega
  | pydict ps =>
    cases ps with
    | pnil => simp [serLit, sizeLit, sizePairs]
    | pcons k v ps' =>
      have h1 := sizeLit_le_len k
      have h2 := sizeLit_le_len v
      have h3 := sizePairs_le_len ps'
      simp only [serLit, sizeLit, sizePairs, List.length_cons,
        List.length_append] at h3 ⊢
      omega

theorem sizeItems_le_len (xs : PyItems) :
    sizeItems xs ≤ (serItemsRest xs).length := by
  cases xs with
  | inil => simp [serItemsRest, sizeItems]
  | icons x ys =>
    have h1 := sizeLit_le_len x
    have h2 := sizeItems_le_len ys
    simp only [serItemsRest, sizeItems, List.length_cons,
      List.length_append]
    omega

theorem sizePairs_le_len (ps : PyPairs) :
    sizePairs ps ≤ (serPairsRest ps).length := by
  cases ps with
  | pnil => simp [serPairsRest, sizePairs]
  | pcons k v ps' =>
    have h1 := sizeLit_le_len k
    have h2 := sizeLit_le_len v
    have h3 := sizePairs_le_len ps'
    simp only [serPairsRest, sizePairs, List.length_cons,
      List.length_append]
    omega

end

/-- Parsing the serialized rendering of any literal value recovers exactly
that value, with the whole input consumed. -/
theorem literal_eval_pformat (v : PyLit) :
    literal_eval (pformat v) = some v := by
  unfold literal_eval pformat
  have h := roundLit ((serLit v).length + 1) v []
    (by have := sizeLit_le_len v; omega) trivial
  rw [List.append_nil] at h
  rw [h]

/-! ## The compilation cache of `CompilerManager` (lines 46-221)

The in-memory cache is a Python dict from
`(runtime_shape, graph_index, backend_name)` tuples to opaque handles
(themselves literal data).  A Python dict is modelled as an association list
with dict update semantics (an existing key keeps its position and gets the
new value; a new key is appended). -/

/-- The shape component of a cache key: `None` or an int. -/
def encodeShape : Option Int → PyLit
  | none => .pynone
  | some n => .pyint n

/-- The literal form of a cache key tuple
`(runtime_shape, graph_index, backend_name)`. -/
def encodeKey (k : Option Int × Int × String) : PyLit :=
  .pytuple (.icons (encodeShape k.1)
    (.icons (.pyint k.2.1) (.icons (.pystr k.2.2.data) .inil)))

/-- An association list as a literal dict entry sequence. -/
def toPairs : List (PyLit × PyLit) → PyPairs
  | [] => .pnil
  | (k, v) :: rest => .pcons k v (toPairs rest)

/-- A literal dict entry sequence as an association list. -/
def pairsToList : PyPairs → List (PyLit × PyLit)
  | .pnil => []
  | .pcons k v rest => (k, v) :: pairsToList rest

/-- The literal dict value of an in-memory cache mapping with typed keys. -/
def cacheLit (m : List ((Option Int × Int × String) × PyLit)) : PyLit :=
  .pydict (toPairs (m.map (fun e => (encodeKey e.1, e.2))))

/-- **C3**: cache artifact round-trip.  For every in-memory cache mapping
with `(optional-int shape, int index, string backend-name)` tuple keys and
literal-data values, serializing it as `CompilerManager.save_to_file` does
(`pprint.pformat`, modelled by `pformat`) and parsing the text back as
`initialize_cache` does (`ast.literal_eval`, modelled by `literal_eval`)
reproduces a mapping identical to the original. -/
theorem cache_artifact_roundtrip
    (m : List ((Option Int × Int × String) × PyLit)) :
    literal_eval (pformat (cacheLit m)) = some (cacheLit m) :=
  literal_eval_pformat (cacheLit m)

/-- Python dict membership test on the association-list model. -/
def dictLookup (d : List (PyLit × PyLit)) (k : PyLit) : Option PyLit :=
  (d.find? (fun p => p.1 == k)).map Prod.snd

/-- Python dict store `d[k] = v`: an existing key keeps its position and gets
the new value; a new key is appended. -/
def dictInsert (d : List (PyLit × PyLit)) (k v : PyLit) :
    List (PyLit × PyLit) :=
  if d.any (fun p => p.1 == k) then
    d.map (fun p => if p.1 == k then (p.1, v) else p)
  else d ++ [(k, v)]

/-- The decimal rendering of a Python int as a string. -/
def pyIntStr (i : Int) : String := ⟨intChars i⟩

/-- The f-string rendering of `runtime_shape`: `None` or the decimal int. -/
def pyOptIntStr : Option Int → String
  | none => "None"
  | some n => pyIntStr n

/-- The backend compiler adaptor (`CompilerInterface`, an external
collaborator): a name used in cache keys, whether the adaptor is the
`InductorAdaptor` variant that generates its own internal key (line 173),
a compile function from (graph, runtime shape, optional key) to an optional
compiled callable and an optional serializable handle, and a load function
rehydrating a callable from a stored handle.  `γ` is the type of compiled
callables, `δ` the type of fx subgraphs. -/
structure CompilerAdaptor (γ δ : Type) where
  name : String
  isInductorAdaptor : Bool
  compileFn : δ → Option Int → Option String → Option γ × Option PyLit
  loadFn : PyLit → δ → Int → Option Int → γ

/-- The mutable state touched by `CompilerManager.compile`: the in-memory
cache dict and dirty flag (lines 62-63), the `disable_cache` flag set by
`initialize_cache` (line 89), the module-global `compilation_start_time`
(line 283), and the shared `compilation_config.compilation_time`
accumulator. -/
structure ManagerState where
  cache : List (PyLit × PyLit)
  is_cache_updated : Bool
  disable_cache : Bool
  compilation_start_time : ℚ
  compilation_time : ℚ
  deriving DecidableEq, Repr

namespace CompilerManager

/-- `CompilerManager.initialize_cache` (lines 70-103): when caching is not
disabled and the artifact file exists, its whole text is parsed strictly as
one literal (`ast.literal_eval`; never executed) and the parsed dict becomes
the in-memory cache; a text that is not a single literal is a fatal parse
error; otherwise the cache stays empty (as set by `__init__`, line 62).
A literal that is not a dict cannot arise from `save_to_file` and is
likewise treated as a malformed artifact. -/
def init_cache (disable_cache : Bool) (fileExists : Bool)
    (content : List Char) : Except String (List (PyLit × PyLit)) :=
  if ¬disable_cache ∧ fileExists = true then
    match literal_eval content with
    | some (.pydict entries) => .ok (pairsToList entries)
    | _ => .error "malformed cache artifact"
  else .ok []

/-- `CompilerManager.save_to_file` (lines 105-111): no write when caching is
disabled or the cache is not dirty; otherwise the pretty literal rendering
of the cache dict is written. -/
def save_to_file (st : ManagerState) : Option (List Char) :=
  if st.disable_cache ∨ st.is_cache_updated = false then none
  else some (pformat (.pydict (toPairs st.cache)))

/-- `CompilerManager.load` (lines 113-132): a missing key is a miss
(`none`); a hit delegates to the adaptor's `load` on the stored handle. -/
def load {γ δ : Type} (compiler : CompilerAdaptor γ δ) (st : ManagerState)
    (g : δ) (graph_index : Int) (runtime_shape : Option Int) : Option γ :=
  match dictLookup st.cache
      (encodeKey (runtime_shape, graph_index, compiler.name)) with
  | none => none
  | some handle => some (compiler.loadFn handle g graph_index runtime_shape)

/-- What one `CompilerManager.compile` call produced: the returned callable
or the assertion error, the state afterwards (also on error: mutations made
before the raise are kept), and the `maybe_key` of each adaptor-compile
invocation performed. -/
structure CompileOutput (γ : Type) where
  result : Except String γ
  state : ManagerState
  adaptorKeys : List (Option String)

/-- `CompilerManager.compile` (lines 134-221).  `now0` is the clock value
read at entry (used only when `graph_index = 0`), `now1` the clock value
read after compiling (used only when `graph_index = num_graphs - 1`). -/
def compile {γ δ : Type} (compiler : CompilerAdaptor γ δ)
    (envDisableCompileCache : Bool) (st : ManagerState) (g : δ)
    (graph_index num_graphs : Int) (runtime_shape : Option Int)
    (now0 now1 : ℚ) : CompileOutput γ :=
  -- lines 142-145: before compiling the first graph, record the start time
  let st1 := if graph_index = 0
    then { st with compilation_start_time := now0 } else st
  -- lines 151-169: try to load from the cache; a hit only logs and returns
  match load compiler st1 g graph_index runtime_shape with
  | some compiled => { result := .ok compiled, state := st1,
                       adaptorKeys := [] }
  | none =>
    -- lines 173-178: derive the artifact key, unless the InductorAdaptor
    -- generates one internally
    let maybe_key : Option String :=
      if compiler.isInductorAdaptor then none
      else some ("artifact_shape_" ++ pyOptIntStr runtime_shape
        ++ "_subgraph_" ++ pyIntStr graph_index)
    -- lines 179-181: call the adaptor
    let res := compiler.compileFn g runtime_shape maybe_key
    match res.1 with
    | none =>
      -- line 183: `assert compiled_graph is not None`
      { result := .error "Failed to compile the graph", state := st1,
        adaptorKeys := [maybe_key] }
    | some compiled =>
      -- lines 186-190: store the handle unless caching is globally disabled
      let st2 :=
        if envDisableCompileCache = false ∧ res.2.isSome then
          { st1 with
            cache := dictInsert st1.cache
              (encodeKey (runtime_shape, graph_index, compiler.name))
              (res.2.getD .pynone)
            is_cache_updated := true }
        else st1
      -- lines 209-219: after the last graph, flush the elapsed time
      let st3 :=
        if graph_index = num_graphs - 1 then
          { st2 with compilation_time :=
              st2.compilation_time + (now1 - st2.compilation_start_time) }
        else st2
      { result := .ok compiled, state := st3, adaptorKeys := [maybe_key] }

end CompilerManager

/-- **C4**: compile-miss postcondition.  On a cache miss, `compile` derives
the deterministic artifact key from `(runtime_shape, graph_index)` — skipped
(`None`) for the `InductorAdaptor`, which generates its own internal key —
and calls the adaptor's compile exactly once with it; a `None` compiled
callable is a fatal assertion error (no retry); otherwise, unless caching is
globally disabled, the returned handle is stored under
`(runtime_shape, graph_index, backend-name)` and the dirty flag
`is_cache_updated` is set. -/
theorem compile_miss_postcondition {γ δ : Type}
    (compiler : CompilerAdaptor γ δ) (envDisable : Bool) (st : ManagerState)
    (g : δ) (idx n : Int) (shape : Option Int) (now0 now1 : ℚ)
    (hmiss : dictLookup st.cache (encodeKey (shape, idx, compiler.name))
      = none) :
    (CompilerManager.compile compiler envDisable st g idx n shape now0
        now1).adaptorKeys
      = [if compiler.isInductorAdaptor then none
         else some ("artifact_shape_" ++ pyOptIntStr shape ++ "_subgraph_"
           ++ pyIntStr idx)] ∧
    ((compiler.compileFn g shape
        (if compiler.isInductorAdaptor then none
         else some ("artifact_shape_" ++ pyOptIntStr shape ++ "_subgraph_"
           ++ pyIntStr idx))).1 = none →
      (CompilerManager.compile compiler envDisable st g idx n shape now0
          now1).result = .error "Failed to compile the graph") ∧
    (∀ cg h, compiler.compileFn g shape
        (if compiler.isInductorAdaptor then none
         else some ("artifact_shape_" ++ pyOptIntStr shape ++ "_subgraph_"
           ++ pyIntStr idx)) = (some cg, some h) →
      (CompilerManager.compile compiler envDisable st g idx n shape now0
          now1).result = .ok cg ∧
      (envDisable = false →
        (CompilerManager.compile compiler envDisable st g idx n shape now0
            now1).state.cache
          = dictInsert st.cache (encodeKey (shape, idx, compiler.name)) h ∧
        (CompilerManager.compile compiler envDisable st g idx n shape now0
            now1).state.is_cache_updated = true)) := by
  have hc : (if idx = 0 then { st with compilation_start_time := now0 }
      else st).cache = st.cache := by split <;> rfl
  have hload : CompilerManager.load compiler
      (if idx = 0 then { st with compilation_start_time := now0 } else st)
      g idx shape = none := by
    unfold CompilerManager.load
    rw [hc, hmiss]
  refine ⟨?_, ?_, ?_⟩
  · unfold CompilerManager.compile
    simp only [hload]
    split <;> rfl
  · intro h0
    unfold CompilerManager.compile
    simp only [hload, h0]
  · intro cg h hres
    unfold CompilerManager.compile
    simp only [hload, hres]
    refine ⟨trivial, ?_⟩
    intro henv
    subst henv
    constructor
    · split <;> simp [hc]
    · split <;> simp

/-- **C8**: timing frame of `CompilerManager.compile`.  The compilation
start time is recorded exactly when `graph_index = 0`; the elapsed
wall-clock time is added to the shared `compilation_config.compilation_time`
accumulator only when `graph_index = num_graphs - 1` (here shown as: every
call with `graph_index ≠ num_graphs - 1` leaves the accumulator unchanged,
and a successfully compiling last call adds `now1 - start`). -/
theorem compile_timing_frame {γ δ : Type}
    (compiler : CompilerAdaptor γ δ) (envD : Bool) (st : ManagerState)
    (g : δ) (idx n : Int) (shape : Option Int) (now0 now1 : ℚ) :
    ((CompilerManager.compile compiler envD st g idx n shape now0
        now1).state.compilation_start_time
      = if idx = 0 then now0 else st.compilation_start_time) ∧
    (idx ≠ n - 1 →
      (CompilerManager.compile compiler envD st g idx n shape now0
          now1).state.compilation_time = st.compilation_time) ∧
    (idx = n - 1 →
      dictLookup st.cache (encodeKey (shape, idx, compiler.name)) = none →
      ∀ cg hopt, compiler.compileFn g shape
        (if compiler.isInductorAdaptor then none
         else some ("artifact_shape_" ++ pyOptIntStr shape ++ "_subgraph_"
           ++ pyIntStr idx)) = (some cg, hopt) →
      (CompilerManager.compile compiler envD st g idx n shape now0
          now1).state.compilation_time
        = st.compilation_time
          + (now1 - (if idx = 0 then now0 else st.compilation_start_time))) := by
  have hc : (if idx = 0 then { st with compilation_start_time := now0 }
      else st).cache = st.cache := by split <;> rfl
  refine ⟨?_, ?_, ?_⟩
  · cases hload : CompilerManager.load compiler
        (if idx = 0 then { st with compilation_start_time := now0 } else st)
        g idx shape with
    | some c =>
      unfold CompilerManager.compile
      simp only [hload]
      split <;> simp_all
    | none =>
      unfold CompilerManager.compile
      simp only [hload]
      (repeat' split) <;> simp_all
  · intro hne
    cases hload : CompilerManager.load compiler
        (if idx = 0 then { st with compilation_start_time := now0 } else st)
        g idx shape with
    | some c =>
      unfold CompilerManager.compile
      simp only [hload]
      split <;> simp_all
    | none =>
      unfold CompilerManager.compile
      simp only [hload]
      (repeat' split) <;> simp_all
  · intro hn hmiss cg hopt hres
    have hload : CompilerManager.load compiler
        (if idx = 0 then { st with compilation_start_time := now0 } else st)
        g idx shape = none := by
      unfold CompilerManager.load
      rw [hc, hmiss]
    unfold CompilerManager.compile
    simp only [hload, hres]
    (repeat' split) <;> simp_all

/-- A concrete non-Inductor adaptor whose compile always succeeds, for the
witnesses. -/
def eagerLikeAdaptor : CompilerAdaptor Nat Nat :=
  { name := "eager"
    isInductorAdaptor := false
    compileFn := fun _ _ _ => (some 1, some (.pystr ['h']))
    loadFn := fun _ _ _ _ => 0 }

/-- A freshly initialized manager state (empty cache, caching enabled). -/
def freshState : ManagerState :=
  { cache := [], is_cache_updated := false, disable_cache := false,
    compilation_start_time := 0, compilation_time := 0 }

/-- Witness for C4: on a miss with the concrete adaptor, exactly one adaptor
invocation with the derived key happens and the dirty flag is set. -/
theorem compile_miss_postcondition_witness :
    (CompilerManager.compile eagerLikeAdaptor false freshState 7 0 1 none 0
        1).adaptorKeys = [some "artifact_shape_None_subgraph_0"] ∧
    (CompilerManager.compile eagerLikeAdaptor false freshState 7 0 1 none 0
        1).state.is_cache_updated = true := by
  obtain ⟨h1, _, h3⟩ := compile_miss_postcondition eagerLikeAdaptor false
    freshState 7 0 1 none 0 1 rfl
  exact ⟨h1.trans (by decide), ((h3 1 (.pystr ['h']) rfl).2 rfl).2⟩

/-- Witness for C8 at a concrete non-final subgraph: the accumulator is
untouched. -/
theorem compile_timing_frame_witness :
    ((0 : Int) = 0 → (CompilerManager.compile eagerLikeAdaptor false
        freshState 7 0 2 none 3 5).state.compilation_start_time = 3) ∧
    ((0 : Int) ≠ 2 - 1 ∧
      (CompilerManager.compile eagerLikeAdaptor false freshState 7 0 2 none
          3 5).state.compilation_time = freshState.compilation_time) := by
  obtain ⟨h1, h2, _⟩ := compile_timing_frame eagerLikeAdaptor false
    freshState 7 0 2 none 3 5
  exact ⟨fun _ => h1.trans (by decide), by decide, h2 (by decide)⟩

/-- **C6**: cache initialization safety.  When caching is enabled and the
artifact file exists, its text is parsed strictly as literal data (the
parser builds a `PyLit` value and can execute nothing) and the parsed
mapping becomes the in-memory cache; a malformed file is a fatal parse
error at initialization; with the file absent or caching disabled the
mapping starts empty. -/
theorem init_cache_spec (disable fe : Bool) (content : List Char) :
    (disable = true ∨ fe = false →
      CompilerManager.init_cache disable fe content = .ok []) ∧
    (disable = false → fe = true → literal_eval content = none →
      CompilerManager.init_cache disable fe content
        = .error "malformed cache artifact") ∧
    (∀ entries, disable = false → fe = true →
      literal_eval content = some (.pydict entries) →
      CompilerManager.init_cache disable fe content
        = .ok (pairsToList entries)) := by
  refine ⟨?_, ?_, ?_⟩
  · rintro (rfl | rfl) <;> unfold CompilerManager.init_cache <;> simp
  · rintro rfl rfl h
    unfold CompilerManager.init_cache
    rw [if_pos ⟨by simp, rfl⟩, h]
  · rintro entries rfl rfl h
    unfold CompilerManager.init_cache
    rw [if_pos ⟨by simp, rfl⟩, h]

/-- Witness for C6: an empty-dict artifact is adopted, a malformed artifact
is a fatal error, and a disabled cache starts empty. -/
theorem literal_eval_empty_dict :
    literal_eval [lbrace, rbrace] = some (.pydict .pnil) := by
  have h := literal_eval_pformat (.pydict .pnil)
  have hser : pformat (.pydict .pnil) = [lbrace, rbrace] := by
    simp [pformat, serLit]
  rwa [hser] at h

theorem literal_eval_lparen : literal_eval ['('] = none := by
  unfold literal_eval
  have h1 : parseLit 2 ['('] = parseLitHead 1 '(' [] :=
    parseLit_cons 1 '(' [] (by decide)
  rw [show (['('] : List Char).length + 1 = 2 from rfl, h1,
    parseLitHead.eq_def]
  rw [if_neg (by decide), if_neg (by decide), if_neg (by decide),
    if_neg (by decide), if_pos rfl]

/-- Witness for C6: an empty-dict artifact is adopted, a malformed artifact
is a fatal error, and a disabled cache starts empty. -/
theorem init_cache_spec_witness :
    CompilerManager.init_cache false true [lbrace, rbrace] = .ok [] ∧
    CompilerManager.init_cache false true ['(']
      = .error "malformed cache artifact" ∧
    CompilerManager.init_cache true true ['('] = .ok [] :=
  ⟨(init_cache_spec false true [lbrace, rbrace]).2.2 .pnil rfl rfl
      literal_eval_empty_dict,
   (init_cache_spec false true ['(']).2.1 rfl rfl literal_eval_lparen,
   (init_cache_spec true true ['(']).1 (Or.inl rfl)⟩

/-- The piecewise dynamic-shape compilation pass over the compilable
subgraphs in order (what `PiecewiseCompileInterpreter.call_module` does, one
`CompilerManager.compile` call per compilable submodule, lines 326-348):
threads the manager state through the calls, counts adaptor invocations,
and reports whether every compile succeeded. -/
def compileAll {γ δ : Type} (compiler : CompilerAdaptor γ δ) (envD : Bool)
    (num_graphs : Int) (now0 now1 : ℚ) :
    ManagerState → List δ → Int → ManagerState × Nat × Bool
  | st, [], _ => (st, 0, true)
  | st, g :: gs, idx =>
    let out := CompilerManager.compile compiler envD st g idx num_graphs
      none now0 now1
    match out.result with
    | .error _ => (out.state, out.adaptorKeys.length, false)
    | .ok _ =>
      let r := compileAll compiler envD num_graphs now0 now1 out.state gs
        (idx + 1)
      (r.1, out.adaptorKeys.length + r.2.1, r.2.2)

theorem compile_disabled_step {γ δ : Type} (compiler : CompilerAdaptor γ δ)
    (st : ManagerState) (g : δ) (idx n : Int) (now0 now1 : ℚ)
    (hsucc : ∀ k, ((compiler.compileFn g none k).1).isSome = true)
    (hcache : st.cache = []) :
    (∃ cg, (CompilerManager.compile compiler true st g idx n none now0
        now1).result = .ok cg) ∧
    (CompilerManager.compile compiler true st g idx n none now0
        now1).state.cache = [] ∧
    (CompilerManager.compile compiler true st g idx n none now0
        now1).state.is_cache_updated = st.is_cache_updated ∧
    (CompilerManager.compile compiler true st g idx n none now0
        now1).state.disable_cache = st.disable_cache ∧
    (CompilerManager.compile compiler true st g idx n none now0
        now1).adaptorKeys.length = 1 := by
  have hc : (if idx = 0 then { st with compilation_start_time := now0 }
      else st).cache = st.cache := by split <;> rfl
  have hload : CompilerManager.load compiler
      (if idx = 0 then { st with compilation_start_time := now0 } else st)
      g idx none = none := by
    unfold CompilerManager.load
    rw [hc, hcache]
    rfl
  cases hres : (compiler.compileFn g none
      (if compiler.isInductorAdaptor then none
       else some ("artifact_shape_" ++ pyOptIntStr none ++ "_subgraph_"
         ++ pyIntStr idx))).1 with
  | none =>
    have := hsucc (if compiler.isInductorAdaptor then none
       else some ("artifact_shape_" ++ pyOptIntStr none ++ "_subgraph_"
         ++ pyIntStr idx))
    rw [hres] at this
    simp at this
  | some cg =>
    have hu : (if idx = 0 then { st with compilation_start_time := now0 }
        else st).is_cache_updated = st.is_cache_updated := by split <;> rfl
    have hd : (if idx = 0 then { st with compilation_start_time := now0 }
        else st).disable_cache = st.disable_cache := by split <;> rfl
    unfold CompilerManager.compile
    simp only [hload, hres, Bool.true_eq_false, false_and, if_false]
    refine ⟨⟨cg, rfl⟩, ?_, ?_, ?_, rfl⟩ <;>
      split <;> split <;> simp [hcache]

/-- **C7**: disabled-cache behavior.  With the compile cache globally
disabled, no artifact file is loaded at initialization (the cache starts
empty); a full compilation pass over any list of subgraphs invokes the
adaptor's compile exactly once per subgraph (the in-memory load never hits,
nothing is ever stored); and `save_to_file` writes no artifact.  Since this
holds for every freshly initialized manager, two successive full
compilations of the same graph on two instances each compile every
compilable subgraph exactly once. -/
theorem compile_disabled_cache {γ δ : Type} (compiler : CompilerAdaptor γ δ)
    (hsucc : ∀ g k, ((compiler.compileFn g none k).1).isSome = true)
    (n : Int) (now0 now1 : ℚ) :
    (∀ (fe : Bool) (content : List Char),
      CompilerManager.init_cache true fe content = .ok []) ∧
    (∀ (graphs : List δ) (st0 : ManagerState) (idx0 : Int),
      st0.cache = [] → st0.is_cache_updated = false →
      st0.disable_cache = true →
      (compileAll compiler true n now0 now1 st0 graphs idx0).2.1
          = graphs.length ∧
      (compileAll compiler true n now0 now1 st0 graphs idx0).2.2 = true ∧
      (compileAll compiler true n now0 now1 st0 graphs idx0).1.cache
          = [] ∧
      (compileAll compiler true n now0 now1 st0 graphs
          idx0).1.is_cache_updated = false ∧
      CompilerManager.save_to_file
        (compileAll compiler true n now0 now1 st0 graphs idx0).1 = none) := by
  constructor
  · intro fe content
    unfold CompilerManager.init_cache
    rw [if_neg (by simp)]
  · intro graphs
    induction graphs with
    | nil =>
      intro st0 idx0 h1 h2 h3
      refine ⟨rfl, rfl, h1, h2, ?_⟩
      show CompilerManager.save_to_file st0 = none
      unfold CompilerManager.save_to_file
      rw [if_pos (Or.inl h3)]
    | cons g gs ih =>
      intro st0 idx0 h1 h2 h3
      obtain ⟨⟨cg, hok⟩, hcache', hupd', hdis', hkeys⟩ :=
        compile_disabled_step compiler st0 g idx0 n now0 now1 (hsucc g) h1
      simp only [compileAll]
      simp only [hok]
      obtain ⟨i1, i2, i3, i4, i5⟩ := ih
        (CompilerManager.compile compiler true st0 g idx0 n none now0
          now1).state (idx0 + 1) hcache' (hupd'.trans h2) (hdis'.trans h3)
      refine ⟨?_, i2, i3, i4, i5⟩
      simp only [hkeys, i1, List.length_cons]
      omega

/-- Witness for C7: with caching disabled, compiling two subgraphs on a
fresh instance invokes the adaptor exactly twice (once per subgraph), the
cache stays empty and clean, and no artifact is written. -/
theorem compile_disabled_cache_witness :
    CompilerManager.init_cache true true ['('] = .ok [] ∧
    (compileAll eagerLikeAdaptor true 2 0 1
        { freshState with disable_cache := true } [5, 6] 0).2.1 = 2 ∧
    CompilerManager.save_to_file (compileAll eagerLikeAdaptor true 2 0 1
        { freshState with disable_cache := true } [5, 6] 0).1 = none := by
  obtain ⟨hinit, hrun⟩ := compile_disabled_cache eagerLikeAdaptor
    (fun _ _ => rfl) 2 0 1
  obtain ⟨hcount, _, _, _, hsave⟩ := hrun [5, 6]
    { freshState with disable_cache := true } 0 rfl rfl rfl
  exact ⟨hinit true ['('], hcount, hsave⟩

/-! ## The top-level backend `VllmBackend.__call__` (lines 374-631) -/

/-- The externally observable actions of `VllmBackend.__call__`, in order:
cache initialization, graph splitting, one subgraph compilation per
compilable submodule, and the one-time graph dump. -/
inductive VEvent where
  | evInitCache : VEvent
  | evSplit : VEvent
  | evCompile : VEvent
  | evWriteGraphDump : VEvent
  deriving DecidableEq, Repr

/-- The state of one `VllmBackend` instance: the `_called` single-use flag
(line 389), the boundary-op names and shared `compilation_time` accumulator
of its compilation config, and its `CompilerManager` state. -/
structure VllmBackendM where
  called : Bool
  splitting_ops : List String
  compilation_time : ℚ
  cm : ManagerState
  deriving DecidableEq

/-- `VllmBackend.__call__` (lines 458-631), as the ordered sequence of its
observable events plus its outcome.  The cache-directory derivation and
directory creation (lines 460-523) are filesystem setup with no bearing on
the verified state; `initialize_cache` (line 533) runs first and may raise
on a malformed artifact; the dynamo bytecode-transform time joins the shared
accumulator (line 542); then `assert not self._called` (line 546) fires
BEFORE the graph is split (line 551) and before any submodule is compiled
(lines 563-572); on success the instance is marked called (line 586). -/
def vllmBackendCall {γ δ : Type} (compiler : CompilerAdaptor γ δ)
    (envDisable fileExists : Bool) (fileContent : List Char)
    (subgraphFor : SplitItem → δ) (dynamoTime now0 now1 : ℚ)
    (st : VllmBackendM) (nodes : List FxNode) :
    List VEvent × Except String (VllmBackendM × List SplitItem) :=
  match CompilerManager.init_cache envDisable fileExists fileContent with
  | .error e => ([.evInitCache], .error e)
  | .ok cache0 =>
    let st1 : VllmBackendM := { st with
      cm := { st.cm with cache := cache0, disable_cache := envDisable },
      compilation_time := st.compilation_time + dynamoTime }
    if st1.called then
      ([.evInitCache], .error "VllmBackend can only be called once")
    else
      let items := split_graph nodes st1.splitting_ops
      let torun := items.filter (fun it => !it.is_splitting_graph)
      let r := compileAll compiler envDisable (torun.length) now0 now1
        st1.cm (torun.map subgraphFor) 0
      if r.2.2 then
        ([.evInitCache, .evSplit]
           ++ List.replicate torun.length .evCompile
           ++ [.evWriteGraphDump],
         .ok ({ st1 with called := true, cm := r.1 }, items))
      else
        ([.evInitCache, .evSplit] ++ List.replicate r.2.1 .evCompile,
         .error "Failed to compile the graph")

/-- **C5**: single-use guarantee of the top-level backend.  If a first
invocation of `VllmBackend.__call__` succeeded on an instance, a second
invocation on that same instance raises the `_called` assertion, and the
second invocation performs no graph splitting and no subgraph compilation
(its event trace contains neither). -/
theorem vllm_backend_single_use {γ δ : Type}
    (compiler : CompilerAdaptor γ δ) (envD fe : Bool)
    (content : List Char) (subgraphFor : SplitItem → δ)
    (dt n0 n1 : ℚ) (st st' : VllmBackendM) (nodes : List FxNode)
    (items : List SplitItem)
    (hfirst : (vllmBackendCall compiler envD fe content subgraphFor dt n0 n1
        st nodes).2 = .ok (st', items)) :
    (vllmBackendCall compiler envD fe content subgraphFor dt n0 n1 st'
        nodes).2 = .error "VllmBackend can only be called once" ∧
    ∀ e ∈ (vllmBackendCall compiler envD fe content subgraphFor dt n0 n1 st'
        nodes).1, e ≠ .evSplit ∧ e ≠ .evCompile := by
  cases hinit : CompilerManager.init_cache envD fe content with
  | error e =>
    unfold vllmBackendCall at hfirst
    simp only [hinit] at hfirst
    simp at hfirst
  | ok c0 =>
    have hcalled : st'.called = true := by
      unfold vllmBackendCall at hfirst
      simp only [hinit] at hfirst
      split at hfirst
      · simp at hfirst
      · split at hfirst
        · simp only [Except.ok.injEq, Prod.mk.injEq] at hfirst
          rw [← hfirst.1]
        · simp at hfirst
    unfold vllmBackendCall
    simp only [hinit]
    rw [if_pos hcalled]
    refine ⟨rfl, ?_⟩
    intro e he
    simp only [List.mem_singleton] at he
    subst he
    exact ⟨by decide, by decide⟩

/-- A fresh backend instance for the witness: never called, one boundary-op
name configured. -/
def freshBackend : VllmBackendM :=
  { called := false, splitting_ops := [attnOp], compilation_time := 0,
    cm := freshState }

/-- The state after a successful first `__call__` on `freshBackend` with the
single-partition `methodCallScenario` graph (written as the expressions the
call produces). -/
def calledBackend : VllmBackendM :=
  { called := true, splitting_ops := [attnOp], compilation_time := 0 + 0,
    cm := (compileAll eagerLikeAdaptor false
      ((split_graph methodCallScenario [attnOp]).filter
        (fun it => !it.is_splitting_graph)).length 0 0 freshState
      (((split_graph methodCallScenario [attnOp]).filter
        (fun it => !it.is_splitting_graph)).map (fun _ => 0)) 0).1 }

/-- Witness for C5: after one successful invocation, the second invocation
on the same instance fails the single-use assertion and performs neither
splitting nor compilation. -/
theorem vllm_backend_single_use_witness :
    (vllmBackendCall eagerLikeAdaptor false false [] (fun _ => 0) 0 0 0
        calledBackend methodCallScenario).2
      = .error "VllmBackend can only be called once" ∧
    ∀ e ∈ (vllmBackendCall eagerLikeAdaptor false false [] (fun _ => 0) 0 0 0
        calledBackend methodCallScenario).1,
      e ≠ .evSplit ∧ e ≠ .evCompile :=
  vllm_backend_single_use eagerLikeAdaptor false false [] (fun _ => 0) 0 0 0
    freshBackend calledBackend methodCallScenario
    (split_graph methodCallScenario [attnOp]) (by rfl)

/-! ## The static-buffer replay adapter `copy_and_call` (lines 600-631)

A tensor is modelled as its list of leading-dimension rows (`List ρ` with an
opaque row type `ρ`): `shape[0]` is the list length, `t[:n]` is `take n`,
and `static.copy_(runtime)` overwrites the prefix view, i.e. the buffer
becomes the runtime rows followed by its remaining rows. -/

theorem getD_set_ne {ρ : Type} (l : List ρ) (i j : Nat) (a d : ρ)
    (h : i ≠ j) : (l.set i a).getD j d = l.getD j d := by
  simp [List.getD, List.getElem?_set_ne h]

theorem getD_set_self {ρ : Type} (l : List ρ) (i : Nat) (a d : ρ)
    (h : i < l.length) : (l.set i a).getD i d = a := by
  simp [List.getD, List.getElem?_set_self, h]

/-- One iteration of the `copy_and_call` loop (lines 620-629) for loop
counter `i` and symbolic position `index`: read the runtime tensor, copy its
data into the prefix view of the `i`-th static buffer, and substitute that
static slice for the argument. -/
def copyAndCallStep {ρ : Type} (args bufs : List (List ρ)) (i index : Nat) :
    List (List ρ) × List (List ρ) :=
  let runtime_tensor := args.getD index []
  let runtime_shape := runtime_tensor.length
  let buf := bufs.getD i []
  let newBuf := runtime_tensor ++ buf.drop runtime_shape
  (args.set index (newBuf.take runtime_shape), bufs.set i newBuf)

/-- The `for i, index in enumerate(self.sym_tensor_indices)` loop. -/
def cacLoop {ρ : Type} :
    List Nat → Nat → List (List ρ) × List (List ρ) →
      List (List ρ) × List (List ρ)
  | [], _, ab => ab
  | index :: idxs, i, ab =>
    cacLoop idxs (i + 1) (copyAndCallStep ab.1 ab.2 i index)

/-- `copy_and_call` (lines 618-630): run the copy-in loop over all symbolic
positions, then forward the full argument list to the stitched graph
callable `self.split_gm`. -/
def copy_and_call {ρ β : Type} (split_gm : List (List ρ) → β)
    (symIndices : List Nat) (bufs args : List (List ρ)) : β :=
  split_gm (cacLoop symIndices 0 (args, bufs)).1

theorem cacLoop_args_len {ρ : Type} (idxs : List Nat) (i : Nat)
    (args bufs : List (List ρ)) :
    (cacLoop idxs i (args, bufs)).1.length = args.length := by
  induction idxs generalizing i args bufs with
  | nil => rfl
  | cons index rest ih =>
    simp only [cacLoop, copyAndCallStep]
    rw [ih]
    simp

theorem cacLoop_bufs_len {ρ : Type} (idxs : List Nat) (i : Nat)
    (args bufs : List (List ρ)) :
    (cacLoop idxs i (args, bufs)).2.length = bufs.length := by
  induction idxs generalizing i args bufs with
  | nil => rfl
  | cons index rest ih =>
    simp only [cacLoop, copyAndCallStep]
    rw [ih]
    simp

theorem cacLoop_args_notmem {ρ : Type} (idxs : List Nat) (i : Nat)
    (args bufs : List (List ρ)) (p : Nat) (hp : p ∉ idxs) :
    ((cacLoop idxs i (args, bufs)).1).getD p [] = args.getD p [] := by
  induction idxs generalizing i args bufs with
  | nil => rfl
  | cons index rest ih =>
    simp only [List.mem_cons, not_or] at hp
    simp only [cacLoop, copyAndCallStep]
    rw [ih _ _ _ hp.2, getD_set_ne _ _ _ _ _ (fun h => hp.1 h.symm)]

theorem cacLoop_bufs_lt {ρ : Type} (idxs : List Nat) (i : Nat)
    (args bufs : List (List ρ)) (q : Nat) (hq : q < i) :
    ((cacLoop idxs i (args, bufs)).2).getD q [] = bufs.getD q [] := by
  induction idxs generalizing i args bufs with
  | nil => rfl
  | cons index rest ih =>
    simp only [cacLoop, copyAndCallStep]
    rw [ih _ _ _ (by omega), getD_set_ne _ _ _ _ _ (by omega)]

theorem cacLoop_spec {ρ : Type} (idxs : List Nat) (i : Nat)
    (args bufs : List (List ρ))
    (hdist : idxs.Pairwise (· ≠ ·))
    (hbnd : ∀ x ∈ idxs, x < args.length)
    (hroom : i + idxs.length ≤ bufs.length) :
    ∀ j (hj : j < idxs.length),
      ((cacLoop idxs i (args, bufs)).2).getD (i + j) []
        = (args.getD (idxs.get ⟨j, hj⟩) [])
          ++ ((bufs.getD (i + j) []).drop
              (args.getD (idxs.get ⟨j, hj⟩) []).length) ∧
      ((cacLoop idxs i (args, bufs)).1).getD (idxs.get ⟨j, hj⟩) []
        = (((cacLoop idxs i (args, bufs)).2).getD (i + j) []).take
            (args.getD (idxs.get ⟨j, hj⟩) []).length ∧
      ((cacLoop idxs i (args, bufs)).1).getD (idxs.get ⟨j, hj⟩) []
        = args.getD (idxs.get ⟨j, hj⟩) [] := by
  induction idxs generalizing i args bufs with
  | nil => intro j hj; exact absurd hj (by simp)
  | cons index rest ih =>
    intro j hj
    have hin : index < args.length := hbnd index (by simp)
    have hibuf : i < bufs.length := by
      simp only [List.length_cons] at hroom; omega
    have hpair := List.pairwise_cons.mp hdist
    have hnotin : index ∉ rest := fun hmem => hpair.1 index hmem rfl
    cases j with
    | zero =>
      simp only [List.get, Nat.add_zero]
      simp only [cacLoop, copyAndCallStep]
      have hbufeq : ((cacLoop rest (i + 1)
          (args.set index ((args.getD index []
              ++ (bufs.getD i []).drop (args.getD index []).length).take
              (args.getD index []).length),
            bufs.set i (args.getD index []
              ++ (bufs.getD i []).drop
                (args.getD index []).length))).2).getD i []
          = args.getD index []
            ++ (bufs.getD i []).drop (args.getD index []).length := by
        rw [cacLoop_bufs_lt _ _ _ _ i (by omega),
          getD_set_self _ _ _ _ hibuf]
      have hargeq : ((cacLoop rest (i + 1)
          (args.set index ((args.getD index []
              ++ (bufs.getD i []).drop (args.getD index []).length).take
              (args.getD index []).length),
            bufs.set i (args.getD index []
              ++ (bufs.getD i []).drop
                (args.getD index []).length))).1).getD index []
          = (args.getD index []
              ++ (bufs.getD i []).drop (args.getD index []).length).take
              (args.getD index []).length := by
        rw [cacLoop_args_notmem _ _ _ _ index hnotin,
          getD_set_self _ _ _ _ hin]
      refine ⟨hbufeq, ?_, ?_⟩
      · rw [hargeq, hbufeq]
      · rw [hargeq, List.take_left]
    | succ j' =>
      have hj' : j' < rest.length := by
        simp only [List.length_cons] at hj; omega
      have hd' : rest.Pairwise (· ≠ ·) := hpair.2
      obtain ⟨c1, c2, c3⟩ := ih (i + 1)
        (args.set index ((args.getD index []
            ++ (bufs.getD i []).drop (args.getD index []).length).take
            (args.getD index []).length))
        (bufs.set i (args.getD index []
            ++ (bufs.getD i []).drop (args.getD index []).length))
        hd'
        (by intro x hx; rw [List.length_set]; exact hbnd x (by simp [hx]))
        (by rw [List.length_set]
            simp only [List.length_cons] at hroom; omega)
        j' hj'
      have hgetne : index ≠ rest.get ⟨j', hj'⟩ :=
        hpair.1 _ (rest.get_mem _ _)
      have hargs' : (args.set index ((args.getD index []
          ++ (bufs.getD i []).drop (args.getD index []).length).take
          (args.getD index []).length)).getD (rest.get ⟨j', hj'⟩) []
          = args.getD (rest.get ⟨j', hj'⟩) [] :=
        getD_set_ne _ _ _ _ _ hgetne
      have hbufs' : (bufs.set i (args.getD index []
          ++ (bufs.getD i []).drop (args.getD index []).length)).getD
          (i + 1 + j') [] = bufs.getD (i + 1 + j') [] :=
        getD_set_ne _ _ _ _ _ (by omega)
      rw [hargs'] at c1 c2 c3
      rw [hbufs'] at c1
      have hidx : i + (j' + 1) = i + 1 + j' := by omega
      have hget : (index :: rest).get ⟨j' + 1, hj⟩ = rest.get ⟨j', hj'⟩ :=
        rfl
      simp only [cacLoop, copyAndCallStep, hidx, hget]
      exact ⟨c1, c2, c3⟩

/-- **C9**: the static-buffer replay adapter.  With the symbolic positions
pairwise distinct (they are strictly increasing in the source, line 604) and
in range, the callable returned by `VllmBackend.__call__` on every
invocation: copies each runtime tensor's rows into the prefix of the
corresponding pre-allocated static buffer (leaving the buffer's remaining
rows in place), substitutes exactly that prefix slice of the static buffer
for the argument at that position (so the substituted argument carries the
runtime tensor's data), leaves every other argument position unchanged, and
forwards the full argument list to the stitched graph callable. -/
theorem copy_and_call_spec {ρ β : Type} (split_gm : List (List ρ) → β)
    (symIndices : List Nat) (bufs args : List (List ρ))
    (hdist : symIndices.Pairwise (· ≠ ·))
    (hbnd : ∀ x ∈ symIndices, x < args.length)
    (hroom : symIndices.length ≤ bufs.length) :
    copy_and_call split_gm symIndices bufs args
      = split_gm (cacLoop symIndices 0 (args, bufs)).1 ∧
    (∀ p, p ∉ symIndices →
      ((cacLoop symIndices 0 (args, bufs)).1).getD p []
        = args.getD p []) ∧
    (∀ j (hj : j < symIndices.length),
      ((cacLoop symIndices 0 (args, bufs)).2).getD j []
        = (args.getD (symIndices.get ⟨j, hj⟩) [])
          ++ ((bufs.getD j []).drop
              (args.getD (symIndices.get ⟨j, hj⟩) []).length) ∧
      ((cacLoop symIndices 0 (args, bufs)).1).getD
          (symIndices.get ⟨j, hj⟩) []
        = (((cacLoop symIndices 0 (args, bufs)).2).getD j []).take
            (args.getD (symIndices.get ⟨j, hj⟩) []).length ∧
      ((cacLoop symIndices 0 (args, bufs)).1).getD
          (symIndices.get ⟨j, hj⟩) []
        = args.getD (symIndices.get ⟨j, hj⟩) []) := by
  refine ⟨rfl, ?_, ?_⟩
  · intro p hp
    exact cacLoop_args_notmem symIndices 0 args bufs p hp
  · intro j hj
    have h := cacLoop_spec symIndices 0 args bufs hdist hbnd
      (by omega) j hj
    simpa using h

/-- Witness for C9 at concrete data: two tensors at symbolic positions 0
and 2 are copied into the two static buffers, position 1 is untouched, and
the stitched callable receives the full substituted argument list. -/
theorem copy_and_call_spec_witness :
    copy_and_call (fun l => l) [0, 2]
        [[10, 11, 12], [20, 21, 22]] [[1, 2], [3], [4]]
      = (cacLoop [0, 2] 0 ([[1, 2], [3], [4]],
          [[10, 11, 12], [20, 21, 22]])).1 ∧
    ((cacLoop [0, 2] 0 ([[1, 2], [3], [4]],
        [[10, 11, 12], [20, 21, 22]])).1).getD 1 [] = [3] := by
  obtain ⟨h1, h2, _⟩ := copy_and_call_spec (fun l => l) [0, 2]
    [[10, 11, 12], [20, 21, 22]] [[1, 2], [3], [4]]
    (by decide) (by decide) (by decide)
  exact ⟨h1, (h2 1 (by decide)).trans (by decide)⟩
